import Mathlib

/-!
# Verification of the patch-manager core (`src/scripts/patch_manager.py`)

A shallow embedding of the deterministic code-mutation engine:
Python strings are Lean `String`s (character-level helpers work on
`String.data : List Char`), the project file tree is an association list
from relative path to file content, Python exceptions are an explicit
`Except` error channel, and the outcome of the external `tsc` subprocess
is an abstract `TsInvocation` value supplied by the configuration.

Machine integers do not overflow in the modelled code paths; Python's
arbitrary-precision line numbers are `Int`.
-/

namespace PatchMgr

/-! ## Python string primitives -/

/-- The ASCII whitespace characters stripped by Python's `str.strip` /
`str.lstrip` (the Unicode-only whitespace code points never reachable in
the modelled call sites are elided). -/
def pyIsSpace (c : Char) : Bool :=
  c = ' ' ∨ c = '\t' ∨ c = '\n' ∨ c = '\r' ∨ c = '\x0b' ∨ c = '\x0c'

/-- Python `s.split("\n")` on a character list: splits at every newline
character and always yields at least one (possibly empty) chunk. -/
def splitNlC : List Char → List (List Char)
  | [] => [[]]
  | c :: rest =>
    if c = '\n' then [] :: splitNlC rest
    else
      match splitNlC rest with
      | [] => [[c]]
      | h :: t => (c :: h) :: t

/-- Python `"\n".join(chunks)` on character lists. -/
def joinNlC : List (List Char) → List Char
  | [] => []
  | [x] => x
  | x :: y :: rest => x ++ '\n' :: joinNlC (y :: rest)

/-- Reattaches the newline terminators that `splitNlC` removed: all chunks
but the last get a trailing `'\n'`; an empty final chunk (the file ended
with a newline) disappears.  This turns a split into Python `readlines`. -/
def readlinesAux : List (List Char) → List (List Char)
  | [] => []
  | [last] => if last = [] then [] else [last]
  | p :: q :: rest => (p ++ ['\n']) :: readlinesAux (q :: rest)

/-- Python `f.readlines()` of a text file whose decoded content is `s`:
the lines of `s`, each keeping its `'\n'` terminator except a final
unterminated line. -/
def readlinesC (s : List Char) : List (List Char) :=
  readlinesAux (splitNlC s)

/-- Python `s.split("\n")` on strings. -/
def splitNl (s : String) : List String :=
  (splitNlC s.data).map String.mk

/-- Python `f.readlines()` on strings (`PatchManager._read_file`'s result
for a file with content `s`). -/
def readlinesS (s : String) : List String :=
  (readlinesC s.data).map String.mk

/-- The number of fields of Python `content.split("\n")` — the line count
the spec's `lines(content)` denotes (one more than the number of newline
characters in `content`). -/
def countLines (s : String) : Nat :=
  (splitNlC s.data).length

/-- The number of lines `readlines` yields for a file with content `s`
(`len(lines)` in the source). -/
def numLines (s : String) : Nat :=
  (readlinesC s.data).length

/-- Python `line.endswith("\n")`. -/
def endswithNl (s : String) : Bool :=
  match s.data.getLast? with
  | some c => c = '\n'
  | none => false

/-- Python `s.lstrip()` on character lists. -/
def pyLstripC (cs : List Char) : List Char :=
  cs.dropWhile pyIsSpace

/-- Python `s.strip()` on character lists. -/
def pyStripC (cs : List Char) : List Char :=
  ((pyLstripC cs).reverse.dropWhile pyIsSpace).reverse

/-- `PatchManager._preserve_indentation(original_line, new_content)`:
if `original_line` has non-whitespace content, its leading whitespace is
copied onto the first line of `new_content` after lstripping it; the
remaining lines are untouched. -/
def preserve_indentation (original_line new_content : String) : String :=
  if pyStripC original_line.data = [] then new_content
  else
    let o := original_line.data
    let indent := o.take (o.length - (pyLstripC o).length)
    match splitNlC new_content.data with
    | [] => new_content
    | f :: rest => String.mk (joinNlC ((indent ++ pyLstripC f) :: rest))

/-- Python slice `l[k:]` for a possibly negative index `k`. -/
def pySliceFrom {α : Type} (l : List α) (k : Int) : List α :=
  if k < 0 then l.drop ((l.length : Int) + k).toNat else l.drop k.toNat

/-- Python slice `l[:k]` for a possibly negative index `k`. -/
def pySliceTo {α : Type} (l : List α) (k : Int) : List α :=
  if k < 0 then l.take ((l.length : Int) + k).toNat else l.take k.toNat

/-- The final path component (everything after the last `/`). -/
def basenameC (cs : List Char) : List Char :=
  (cs.reverse.takeWhile (fun c => c ≠ '/')).reverse

/-- `pathlib.Path(p).suffix`: the extension of the final path component,
empty for dotless and dot-leading ("hidden") names. -/
def pySuffix (p : String) : String :=
  let base := basenameC p.data
  let i := (base.length - 1) - (base.reverse.takeWhile (fun c => c ≠ '.')).length
  if 0 < i ∧ i + 1 < base.length ∧ base.contains '.' then String.mk (base.drop i)
  else ""

/-! ## difflib (as used with `SequenceMatcher(None, a, b)` and
`unified_diff(a, b, fromfile, tofile, lineterm='')`) -/

/-- An opcode tag of `difflib.SequenceMatcher.get_opcodes`. -/
inductive Tag where
  | replace
  | delete
  | insert
  | equal
deriving DecidableEq, Inhabited

/-- One opcode `(tag, i1, i2, j1, j2)`. -/
structure Opcode where
  tag : Tag
  i1 : Nat
  i2 : Nat
  j1 : Nat
  j2 : Nat
deriving DecidableEq, Inhabited

/-- A matching block `(i, j, size)`. -/
abbrev Block := Nat × Nat × Nat

/-- The contiguous slice `l[i:j]` for natural indices (Python slice on
in-range indices). -/
def seg {α : Type} (l : List α) (i j : Nat) : List α :=
  (l.drop i).take (j - i)

/-- `SequenceMatcher.__chain_b` with `isjunk = None`: `b2j` maps an
element to the ascending list of its indices in `b`; with `autojunk`
(the default) an element occurring in more than 1% of a sequence of at
least 200 elements is popular and dropped from the map.  The junk set
`bjunk` is empty since `isjunk` is `None`. -/
def chainB (b : List String) (x : String) : List Nat :=
  let idxs := (List.range b.length).filter (fun j => b.get? j = some x)
  if 200 ≤ b.length ∧ b.length / 100 + 1 < idxs.length then [] else idxs

/-- The running best match `(besti, bestj, bestsize)` of
`find_longest_match`. -/
structure FlmBest where
  besti : Nat
  bestj : Nat
  bestsize : Nat
deriving DecidableEq, Inhabited

/-- The inner loop of `find_longest_match` over `b2j.get(a[i], [])`:
indices below `blo` are skipped, the ascending list is cut at the first
index at or beyond `bhi` (`break`), and each surviving `j` records
`k = j2len.get(j-1, 0) + 1` in the new row while updating the best match
(`besti, bestj, bestsize = i-k+1, j-k+1, k` when `k` is a new maximum;
`k ≤ i+1` always holds there, so natural subtraction is exact). -/
def procJs (blo bhi : Nat) (j2prev : Nat → Nat) (i : Nat) :
    List Nat → (Nat → Nat) → FlmBest → ((Nat → Nat) × FlmBest)
  | [], acc, best => (acc, best)
  | j :: js, acc, best =>
    if j < blo then procJs blo bhi j2prev i js acc best
    else if bhi ≤ j then (acc, best)
    else
      let k := (if j = 0 then 0 else j2prev (j - 1)) + 1
      let acc' := fun j' => if j' = j then k else acc j'
      let best' : FlmBest :=
        if best.bestsize < k then ⟨i + 1 - k, j + 1 - k, k⟩ else best
      procJs blo bhi j2prev i js acc' best'

/-- The outer loop of `find_longest_match` over `i in range(alo, ahi)`
(`cnt` rows remain, the current row index is `i`); each row rebuilds
`j2len` from the previous row's. -/
def dpRows (a b : List String) (b2j : String → List Nat) (blo bhi : Nat) :
    Nat → Nat → (Nat → Nat) → FlmBest → FlmBest
  | _, 0, _, best => best
  | i, cnt + 1, j2len, best =>
    let step := procJs blo bhi j2len i (b2j (a.getD i "")) (fun _ => 0) best
    dpRows a b b2j blo bhi (i + 1) cnt step.1 step.2

/-- `a[i] == b[j]` on in-range indices (both out-of-range never arises at
the modelled call sites). -/
def matchElem (a b : List String) (i j : Nat) : Bool :=
  match a[i]?, b[j]? with
  | some x, some y => x = y
  | _, _ => false

/-- The first extension loop of `find_longest_match` (the junk-set is
empty, so its `not isbjunk(...)` conjunct is true and the two junk
extension loops are no-ops): extend the match downwards while
`besti > alo and bestj > blo and a[besti-1] == b[bestj-1]`.  Structural
recursion on `besti`, which decreases by one per step. -/
def extendLo (a b : List String) (alo blo : Nat) :
    Nat → Nat → Nat → FlmBest
  | 0, bestj, bestsize => ⟨0, bestj, bestsize⟩
  | bi + 1, bestj, bestsize =>
    if alo < bi + 1 ∧ blo < bestj ∧ matchElem a b bi (bestj - 1) then
      extendLo a b alo blo bi (bestj - 1) (bestsize + 1)
    else ⟨bi + 1, bestj, bestsize⟩

/-- The second extension loop of `find_longest_match`: extend upwards
while `besti+bestsize < ahi and bestj+bestsize < bhi and
a[besti+bestsize] == b[bestj+bestsize]`.  `gas` is a structural-recursion
bound; the caller passes `gas = ahi`, which exceeds the number of
possible steps (each step needs `besti + bestsize < ahi`). -/
def extendHiF (a b : List String) (ahi bhi besti bestj : Nat) :
    Nat → Nat → Nat
  | 0, bestsize => bestsize
  | gas + 1, bestsize =>
    if besti + bestsize < ahi ∧ bestj + bestsize < bhi ∧
        matchElem a b (besti + bestsize) (bestj + bestsize) then
      extendHiF a b ahi bhi besti bestj gas (bestsize + 1)
    else bestsize

/-- `SequenceMatcher.find_longest_match(alo, ahi, blo, bhi)` with an
empty junk set: the dynamic-programming pass followed by the two (live)
extension loops. -/
def find_longest_match (a b : List String) (b2j : String → List Nat)
    (alo ahi blo bhi : Nat) : FlmBest :=
  let dp := dpRows a b b2j blo bhi alo (ahi - alo) (fun _ => 0) ⟨alo, blo, 0⟩
  let lo := extendLo a b alo blo dp.besti dp.bestj dp.bestsize
  ⟨lo.besti, lo.bestj, extendHiF a b ahi bhi lo.besti lo.bestj ahi lo.bestsize⟩

/-- The recursive core of `get_matching_blocks`: find the longest match,
then recurse on the region before and after it.  The Python original
drives an explicit queue and sorts the collected blocks; the recursion
here emits them directly in that sorted order.  `fuel` bounds the
recursion depth; each level strictly shrinks `(ahi-alo)+(bhi-blo)`, so
the caller's `fuel = la + lb + 1` is sufficient. -/
def matchingBlocksGo (a b : List String) (b2j : String → List Nat) :
    Nat → Nat → Nat → Nat → Nat → List Block
  | 0, _, _, _, _ => []
  | fuel + 1, alo, ahi, blo, bhi =>
    let m := find_longest_match a b b2j alo ahi blo bhi
    if m.bestsize = 0 then []
    else
      (if alo < m.besti ∧ blo < m.bestj then
        matchingBlocksGo a b b2j fuel alo m.besti blo m.bestj
      else []) ++
      [(m.besti, m.bestj, m.bestsize)] ++
      (if m.besti + m.bestsize < ahi ∧ m.bestj + m.bestsize < bhi then
        matchingBlocksGo a b b2j fuel (m.besti + m.bestsize) ahi
          (m.bestj + m.bestsize) bhi
      else [])

/-- The second phase of `get_matching_blocks`: merge adjacent blocks,
starting from the accumulator `(0, 0, 0)` and dropping any accumulator
with size zero. -/
def mergeAdj : Block → List Block → List Block
  | (i1, j1, k1), [] => if k1 ≠ 0 then [(i1, j1, k1)] else []
  | (i1, j1, k1), (i2, j2, k2) :: rest =>
    if i1 + k1 = i2 ∧ j1 + k1 = j2 then mergeAdj (i1, j1, k1 + k2) rest
    else
      (if k1 ≠ 0 then [(i1, j1, k1)] else []) ++ mergeAdj (i2, j2, k2) rest

/-- `SequenceMatcher.get_matching_blocks()`: the sorted matched blocks,
adjacent ones merged, with the terminating sentinel `(la, lb, 0)`. -/
def get_matching_blocks (a b : List String) : List Block :=
  mergeAdj (0, 0, 0)
      (matchingBlocksGo a b (chainB b) (a.length + b.length + 1)
        0 a.length 0 b.length) ++
    [(a.length, b.length, 0)]

/-- The loop of `get_opcodes` over the matching blocks, carrying the
current positions `i`, `j`. -/
def opcodesGo : Nat → Nat → List Block → List Opcode
  | _, _, [] => []
  | i, j, (ai, bj, size) :: rest =>
    (if i < ai ∧ j < bj then [⟨.replace, i, ai, j, bj⟩]
      else if i < ai then [⟨.delete, i, ai, j, bj⟩]
      else if j < bj then [⟨.insert, i, ai, j, bj⟩]
      else []) ++
    (if size ≠ 0 then [⟨.equal, ai, ai + size, bj, bj + size⟩] else []) ++
    opcodesGo (ai + size) (bj + size) rest

/-- `SequenceMatcher.get_opcodes()`. -/
def get_opcodes (a b : List String) : List Opcode :=
  opcodesGo 0 0 (get_matching_blocks a b)

/-- `get_grouped_opcodes`' adjustment of a leading equal opcode:
`codes[0] = tag, max(i1, i2-n), i2, max(j1, j2-n), j2`. -/
def trimHead (n : Nat) : List Opcode → List Opcode
  | [] => []
  | c :: rest =>
    (if c.tag = .equal then
      { c with i1 := max c.i1 (c.i2 - n), j1 := max c.j1 (c.j2 - n) }
    else c) :: rest

/-- `get_grouped_opcodes`' adjustment of a trailing equal opcode:
`codes[-1] = tag, i1, min(i2, i1+n), j1, min(j2, j1+n)`. -/
def trimLastAux (n : Nat) : List Opcode → List Opcode
  | [] => []
  | [c] =>
    [if c.tag = .equal then
      { c with i2 := min c.i2 (c.i1 + n), j2 := min c.j2 (c.j1 + n) }
    else c]
  | c :: d :: rest => c :: trimLastAux n (d :: rest)

/-- The grouping loop of `get_grouped_opcodes`: an equal opcode wider
than `2n` closes the current group (keeping `n` context lines) and opens
the next one (again with `n` context lines); a final group that is a
single equal opcode is suppressed. -/
def groupSplit (n : Nat) : List Opcode → List Opcode → List (List Opcode)
  | group, [] =>
    match group with
    | [] => []
    | [g] => if g.tag = .equal then [] else [[g]]
    | _ => [group]
  | group, c :: rest =>
    if c.tag = .equal ∧ 2 * n < c.i2 - c.i1 then
      (group ++ [{ c with i2 := min c.i2 (c.i1 + n), j2 := min c.j2 (c.j1 + n) }]) ::
        groupSplit n [{ c with i1 := max c.i1 (c.i2 - n), j1 := max c.j1 (c.j2 - n) }] rest
    else groupSplit n (group ++ [c]) rest

/-- `SequenceMatcher.get_grouped_opcodes(n)` (with `unified_diff`'s
default `n = 3`), including the `[('equal', 0, 1, 0, 1)]` placeholder
when there are no opcodes at all. -/
def get_grouped_opcodes (a b : List String) (n : Nat) : List (List Opcode) :=
  let codes := get_opcodes a b
  let codes := if codes = [] then [⟨.equal, 0, 1, 0, 1⟩] else codes
  groupSplit n [] (trimLastAux n (trimHead n codes))

/-- `difflib._format_range_unified(start, stop)`. -/
def format_range_unified (start stop : Nat) : String :=
  let beginning := start + 1
  let length := stop - start
  if length = 1 then toString beginning
  else toString (if length = 0 then start else beginning) ++ "," ++ toString length

/-- The body lines `unified_diff` emits for one opcode: context lines
`' ' + line` for equal, `'-' + line` for replace/delete from `a`, and
`'+' + line` for replace/insert from `b`. -/
def opDiffLines (a b : List String) (c : Opcode) : List String :=
  match c.tag with
  | .equal => (seg a c.i1 c.i2).map (" " ++ ·)
  | .replace =>
    (seg a c.i1 c.i2).map ("-" ++ ·) ++ (seg b c.j1 c.j2).map ("+" ++ ·)
  | .delete => (seg a c.i1 c.i2).map ("-" ++ ·)
  | .insert => (seg b c.j1 c.j2).map ("+" ++ ·)

/-- The `@@ -... +... @@` hunk header plus body lines for one group. -/
def groupText (a b : List String) (g : List Opcode) : List String :=
  let first := g.headD default
  let last := g.getLastD default
  ("@@ -" ++ format_range_unified first.i1 last.i2 ++
      " +" ++ format_range_unified first.j1 last.j2 ++ " @@") ::
    (g.map (opDiffLines a b)).flatten

/-- `difflib.unified_diff(a, b, fromfile, tofile, lineterm='')` with
empty file dates: the generated lines (file headers only when at least
one group exists). -/
def unified_diff (a b : List String) (fromfile tofile : String) : List String :=
  let groups := get_grouped_opcodes a b 3
  if groups = [] then []
  else ("--- " ++ fromfile) :: ("+++ " ++ tofile) :: (groups.map (groupText a b)).flatten

/-- `PatchManager._generate_unified_diff(file_path, original, modified)`:
`'\n'.join(...)` of the generated diff lines, both headers naming the
same path. -/
def generate_unified_diff (path : String) (original modified : List String) : String :=
  String.intercalate "\n" (unified_diff original modified path path)

/-! ## Data model -/

/-- The project file tree under the project root, keyed by the
(root-relative) path each operation names: the decoded text content per
existing file.  The core assumes exclusive, uncontended access for the
duration of one batch. -/
abbrev FS := List (String × String)

/-- Does `path` exist (`file_path.exists()`)? -/
def fsMem (fs : FS) (path : String) : Bool :=
  fs.any (fun e => e.1 = path)

/-- The content of `path`, if it exists. -/
def fsRead (fs : FS) (path : String) : Option String :=
  (fs.find? (fun e => e.1 = path)).map (·.2)

/-- Writing `content` to `path` (update in place, create otherwise). -/
def fsWrite (fs : FS) (path content : String) : FS :=
  match fs with
  | [] => [(path, content)]
  | (p, v) :: rest =>
    if p = path then (p, content) :: rest else (p, v) :: fsWrite rest path content

/-- `PatchOperation` (the `end` line number is `end_`, `end` being a Lean
keyword). -/
structure PatchOperation where
  op : String
  file : String
  start : Option Int := none
  end_ : Option Int := none
  line : Option Int := none
  block : Option String := none
  blockFile : Option String := none
  openSpace : Bool := false
  taskId : Option String := none
deriving DecidableEq, Inhabited

/-- `PatchBatch`. -/
structure PatchBatch where
  orderId : Option String := none
  requester : String := "agent"
  reason : String := ""
  branch : String := ""
  patches : List PatchOperation := []
deriving DecidableEq, Inhabited

/-- The Python exceptions that can escape the modelled code. -/
inductive PyExc where
  | fileNotFound (msg : String)
  | valueError (msg : String)
deriving DecidableEq

/-- The outcome of the one `subprocess.run(['npx', 'tsc', ...])`
invocation: normal completion with a return code, `TimeoutExpired`,
`FileNotFoundError` (the binary is absent), or some other exception. -/
inductive TsInvocation where
  | completed (returncode : Int)
  | timeout
  | binMissing
  | raised
deriving DecidableEq, Inhabited

/-- `PatchManager._check_typescript`'s result as a function of the
invocation outcome: `returncode == 0 ↦ True`, nonzero `↦ False`,
`TimeoutExpired ↦ False`, absent binary `↦ None`, any other
exception `↦ False`. -/
def check_typescript (inv : TsInvocation) : Option Bool :=
  match inv with
  | .completed rc => if rc = 0 then some true else some false
  | .timeout => some false
  | .binMissing => none
  | .raised => some false

/-- The manager configuration: the `--dry-run` flag, the abstracted
outcome of a `tsc` invocation per file, and the generated
`f"patch-{os.getpid()}-{int(time.time())}"` identifier used when the
batch has no (truthy) `orderId`. -/
structure Config where
  dryRun : Bool
  tsOutcome : String → TsInvocation
  genPatchId : String

/-- One operation's result dictionary: on success `diff` is set and
`ts_check_ok` is the type-check outcome (absent for files that are not
statically typed); on a caught failure `error` is set and `ts_check_ok`
is `False`. -/
structure OpResult where
  success : Bool
  file : String
  op : String
  diff : Option String
  ts_check_ok : Option Bool
  error : Option String
deriving DecidableEq, Inhabited

/-- One webhook lifecycle event handed to `notify_orchestrator` (the
`meta` dictionary carries `operation_index` and `total_operations`). -/
structure Event where
  patch_id : String
  file : String
  op : String
  status : String
  task_id : Option String
  ts_check_ok : Option Bool
  op_index : Nat
  total : Nat
deriving DecidableEq

/-- `apply_batch`'s result dictionary. -/
structure BatchResult where
  patch_id : String
  success : Bool
  operations : List OpResult
  total : Nat
  succeeded : Nat
  failed : Nat
deriving DecidableEq

/-- One task entry of `.mission_control/tasks.json` (`id` is the `str()`
of whatever the JSON holds). -/
structure TaskDef where
  id : String
  files : List String
  allowedOperations : List String
deriving DecidableEq, Inhabited

/-- The parsed task schema. -/
structure TaskSchema where
  tasks : List TaskDef
deriving DecidableEq, Inhabited

/-! ## Line editor -/

/-- The `ValueError` message of `replace_block`'s range check. -/
def range_error_msg (start_line end_line : Int) (n : Nat) : String :=
  "Line numbers out of range: " ++ toString start_line ++ "-" ++
    toString end_line ++ " (file has " ++ toString n ++ " lines)"

/-- The `ValueError` message of the `insert_before` / `insert_after`
range check. -/
def line_error_msg (line : Int) (n : Nat) : String :=
  "Line number out of range: " ++ toString line ++ " (file has " ++
    toString n ++ " lines)"

/-- `PatchManager.replace_block(file_path, start_line, end_line,
new_content, preserve_indent)` on a file with content `fileContent` (the
`self._read_file(file_path)` call is modelled by the caller passing the
file's current content; `apply_operation` checks existence first).
Returns the modified lines and the unified diff, or the range
`ValueError`. -/
def replace_block (path : String) (fileContent : String)
    (start_line end_line : Int) (new_content : String)
    (preserve_indent : Bool) : Except String (List String × String) :=
  let lines := readlinesS fileContent
  let start_idx : Int := start_line - 1
  let end_idx : Int := end_line
  if start_idx < 0 ∨ (lines.length : Int) < end_idx then
    .error (range_error_msg start_line end_line lines.length)
  else
    let content :=
      if preserve_indent ∧ start_idx < (lines.length : Int) then
        preserve_indentation (lines.getD start_idx.toNat "") new_content
      else new_content
    let new_lines := splitNl content
    let new_lines :=
      if new_lines ≠ [] ∧ ¬ endswithNl content then new_lines
      else new_lines.map (fun l => if ¬ endswithNl l then l ++ "\n" else l)
    let modified_lines := pySliceTo lines start_idx ++ new_lines ++ pySliceFrom lines end_idx
    .ok (modified_lines, generate_unified_diff path lines modified_lines)

/-- `PatchManager.insert_before(file_path, line_number, new_content,
preserve_indent)` on a file with content `fileContent`. -/
def insert_before (path : String) (fileContent : String) (line_number : Int)
    (new_content : String) (preserve_indent : Bool) :
    Except String (List String × String) :=
  let lines := readlinesS fileContent
  let insert_idx : Int := line_number - 1
  if insert_idx < 0 ∨ (lines.length : Int) < insert_idx then
    .error (line_error_msg line_number lines.length)
  else
    let content :=
      if preserve_indent ∧ insert_idx < (lines.length : Int) then
        preserve_indentation (lines.getD insert_idx.toNat "") new_content
      else new_content
    let new_lines := (splitNl content).map
      (fun l => if ¬ endswithNl l ∧ l ≠ "" then l ++ "\n" else l)
    let modified_lines := pySliceTo lines insert_idx ++ new_lines ++ pySliceFrom lines insert_idx
    .ok (modified_lines, generate_unified_diff path lines modified_lines)

/-- `PatchManager.insert_after(file_path, line_number, new_content,
preserve_indent)` on a file with content `fileContent`. -/
def insert_after (path : String) (fileContent : String) (line_number : Int)
    (new_content : String) (preserve_indent : Bool) :
    Except String (List String × String) :=
  let lines := readlinesS fileContent
  let insert_idx : Int := line_number
  if insert_idx < 0 ∨ (lines.length : Int) < insert_idx then
    .error (line_error_msg line_number lines.length)
  else
    let content :=
      if preserve_indent ∧ 0 < insert_idx then
        preserve_indentation (lines.getD (insert_idx - 1).toNat "") new_content
      else new_content
    let new_lines := (splitNl content).map
      (fun l => if ¬ endswithNl l ∧ l ≠ "" then l ++ "\n" else l)
    let modified_lines := pySliceTo lines insert_idx ++ new_lines ++ pySliceFrom lines insert_idx
    .ok (modified_lines, generate_unified_diff path lines modified_lines)

/-- `PatchManager.append(file_path, new_content)` on a file with content
`fileContent`: the content is normalized to end with a newline, split,
and each nonempty piece newline-terminated. -/
def append (path : String) (fileContent : String) (new_content : String) :
    Except String (List String × String) :=
  let lines := readlinesS fileContent
  let content := if ¬ endswithNl new_content then new_content ++ "\n" else new_content
  let new_lines := (splitNl content).map (fun l => if l ≠ "" then l ++ "\n" else l)
  let modified_lines := lines ++ new_lines
  .ok (modified_lines, generate_unified_diff path lines modified_lines)

/-- `PatchManager.prepend(file_path, new_content)` on a file with content
`fileContent`. -/
def prepend (path : String) (fileContent : String) (new_content : String) :
    Except String (List String × String) :=
  let lines := readlinesS fileContent
  let content := if ¬ endswithNl new_content then new_content ++ "\n" else new_content
  let new_lines := (splitNl content).map (fun l => if l ≠ "" then l ++ "\n" else l)
  let modified_lines := new_lines ++ lines
  .ok (modified_lines, generate_unified_diff path lines modified_lines)

/-! ## Batch orchestrator -/

/-- `PatchManager._get_content(operation)`: a truthy inline `block` wins,
else a truthy `blockFile` is read from the project tree (a missing block
file raises the underlying `FileNotFoundError`, whose message is modelled
up to the elided absolute-path prefix), else
`ValueError("Either 'block' or 'blockFile' must be provided")`. -/
def get_content (fs : FS) (operation : PatchOperation) : Except PyExc String :=
  match operation.block with
  | some b =>
    if b ≠ "" then .ok b
    else match operation.blockFile with
      | some bf =>
        if bf ≠ "" then
          match fsRead fs bf with
          | some c => .ok c
          | none => .error (.fileNotFound ("No such file or directory: " ++ bf))
        else .error (.valueError "Either 'block' or 'blockFile' must be provided")
      | none => .error (.valueError "Either 'block' or 'blockFile' must be provided")
  | none =>
    match operation.blockFile with
    | some bf =>
      if bf ≠ "" then
        match fsRead fs bf with
        | some c => .ok c
        | none => .error (.fileNotFound ("No such file or directory: " ++ bf))
      else .error (.valueError "Either 'block' or 'blockFile' must be provided")
    | none => .error (.valueError "Either 'block' or 'blockFile' must be provided")

/-- `PatchManager._write_file(file_path, lines)`: a no-op in dry-run
mode, otherwise `writelines` (concatenation) replaces the file's
content. -/
def write_file (cfg : Config) (fs : FS) (path : String) (lines : List String) : FS :=
  if cfg.dryRun then fs else fsWrite fs path (String.join lines)

/-- Is the file statically typed (`file_path.suffix in ['.ts', '.tsx']`)? -/
def isTsFile (path : String) : Bool :=
  pySuffix path = ".ts" ∨ pySuffix path = ".tsx"

/-- The in-`try` dispatch of `apply_operation` on the operation kind,
producing the modified lines and diff or the `ValueError` the dispatch
raises. -/
def dispatch_operation (operation : PatchOperation) (fileContent : String) :
    (content : String) → Except String (List String × String) :=
  fun content =>
    if operation.op = "replace-block" then
      match operation.start, operation.end_ with
      | some s, some e =>
        replace_block operation.file fileContent s e content (¬ operation.openSpace)
      | _, _ => .error "replace-block requires 'start' and 'end' line numbers"
    else if operation.op = "insert-before" then
      match operation.line with
      | some l => insert_before operation.file fileContent l content (¬ operation.openSpace)
      | none => .error "insert-before requires 'line' number"
    else if operation.op = "insert-after" then
      match operation.line with
      | some l => insert_after operation.file fileContent l content (¬ operation.openSpace)
      | none => .error "insert-after requires 'line' number"
    else if operation.op = "append" then append operation.file fileContent content
    else if operation.op = "prepend" then prepend operation.file fileContent content
    else .error ("Unknown operation type: " ++ operation.op)

/-- `PatchManager.apply_operation(operation)`.  The existence check and
the content resolution run **before** the `try` block, so their
exceptions escape to the caller (`.error`); every exception raised inside
the dispatch is caught and recorded as a failed result with
`ts_check_ok = False`.  On success the file is written (unless dry-run)
and a `.ts`/`.tsx` file is type-checked. -/
def apply_operation (cfg : Config) (fs : FS) (operation : PatchOperation) :
    Except PyExc (FS × OpResult) :=
  if ¬ fsMem fs operation.file then
    .error (.fileNotFound ("File not found: " ++ operation.file))
  else
    match get_content fs operation with
    | .error e => .error e
    | .ok content =>
      match dispatch_operation operation ((fsRead fs operation.file).getD "") content with
      | .error msg =>
        .ok (fs, ⟨false, operation.file, operation.op, none, some false, some msg⟩)
      | .ok (modified_lines, diff) =>
        let fs' := write_file cfg fs operation.file modified_lines
        let ts :=
          if isTsFile operation.file then check_typescript (cfg.tsOutcome operation.file)
          else none
        .ok (fs', ⟨true, operation.file, operation.op, some diff, ts, none⟩)

/-- Python's `repr` of a list of strings, as interpolated into the
validation error messages (embedded quotes are not re-escaped at the
modelled call sites). -/
def pyReprStrList (l : List String) : String :=
  "[" ++ String.intercalate ", " (l.map (fun s => "'" ++ s ++ "'")) ++ "]"

/-- The task id the validator acts on: present and truthy
(`if operation.taskId:`). -/
def effTaskId (operation : PatchOperation) : Option String :=
  match operation.taskId with
  | some t => if t = "" then none else some t
  | none => none

/-- The validation loop over the batch's operations (`i` is the current
index): for each operation with a truthy task id found in the schema, a
non-empty `files` list must contain the operation's file and a non-empty
`allowedOperations` list must contain its op kind; an unknown task id
only logs a warning. -/
def validate_ops (tasks : List TaskDef) : List PatchOperation → Nat → Except String Unit
  | [], _ => .ok ()
  | operation :: rest, i =>
    match effTaskId operation with
    | none => validate_ops tasks rest (i + 1)
    | some tid =>
      match tasks.find? (fun t => t.id = tid) with
      | none => validate_ops tasks rest (i + 1)
      | some task_def =>
        if task_def.files ≠ [] ∧ operation.file ∉ task_def.files then
          .error ("Operation " ++ toString (i + 1) ++ ": File '" ++ operation.file ++
            "' not in allowed files for task " ++ tid ++ ": " ++ pyReprStrList task_def.files)
        else if task_def.allowedOperations ≠ [] ∧ operation.op ∉ task_def.allowedOperations then
          .error ("Operation " ++ toString (i + 1) ++ ": Operation '" ++ operation.op ++
            "' not in allowed operations for task " ++ tid ++ ": " ++
            pyReprStrList task_def.allowedOperations)
        else validate_ops tasks rest (i + 1)

/-- `PatchManager._validate_against_task_schema(batch)`.  `schemaFile`
models the state of `.mission_control/tasks.json`: absent (`none`),
present but unparseable (`some (.error msg)`, the `json.JSONDecodeError`
is caught and only warned about), or parsed (`some (.ok schema)`).  A
validation `ValueError` raised in the loop is caught by the
`except Exception` clause and re-raised wrapped as
`ValueError(f"Task schema validation failed: {e}")`. -/
def validate_against_task_schema (schemaFile : Option (Except String TaskSchema))
    (batch : PatchBatch) : Except String Unit :=
  match schemaFile with
  | none => .ok ()
  | some (.error _) => .ok ()
  | some (.ok schema) =>
    match validate_ops schema.tasks batch.patches 0 with
    | .ok () => .ok ()
    | .error e => .error ("Task schema validation failed: " ++ e)

/-- The lifecycle event `apply_batch` sends for a successful operation. -/
def mkEvent (patch_id : String) (operation : PatchOperation) (r : OpResult)
    (i total : Nat) : Event :=
  ⟨patch_id, operation.file, operation.op, "applied", operation.taskId,
    r.ts_check_ok, i, total⟩

/-- The loop of `apply_batch` over the operations: each operation is
applied in order (an exception escaping `apply_operation` aborts the
whole loop, carrying the file tree as it stood), its result collected,
and — only when the result is successful — one `notify_orchestrator`
event emitted. -/
def apply_ops (cfg : Config) (patch_id : String) (total : Nat) :
    FS → List PatchOperation → Nat → Except (PyExc × FS) (FS × List OpResult × List Event)
  | fs, [], _ => .ok (fs, [], [])
  | fs, operation :: rest, i =>
    match apply_operation cfg fs operation with
    | .error e => .error (e, fs)
    | .ok (fs', r) =>
      let evs := if r.success then [mkEvent patch_id operation r i total] else []
      match apply_ops cfg patch_id total fs' rest (i + 1) with
      | .error ef => .error ef
      | .ok (fs'', rs, es) => .ok (fs'', r :: rs, evs ++ es)

/-- The effective patch id: `batch.orderId or f"patch-{pid}-{time}"`. -/
def effPatchId (cfg : Config) (batch : PatchBatch) : String :=
  match batch.orderId with
  | some s => if s = "" then cfg.genPatchId else s
  | none => cfg.genPatchId

/-- `PatchManager.apply_batch(batch)`: validate once against the task
schema (a failure aborts pre-mutation), then apply the operations in order,
then aggregate.  An uncaught exception is the `.error` case, carrying the
file tree at the moment it escaped. -/
def apply_batch (cfg : Config) (fs : FS) (batch : PatchBatch)
    (schemaFile : Option (Except String TaskSchema)) :
    Except (PyExc × FS) (FS × BatchResult × List Event) :=
  match validate_against_task_schema schemaFile batch with
  | .error e => .error (.valueError e, fs)
  | .ok () =>
    let patch_id := effPatchId cfg batch
    match apply_ops cfg patch_id batch.patches.length fs batch.patches 0 with
    | .error ef => .error ef
    | .ok (fs', results, events) =>
      .ok (fs',
        ⟨patch_id,
          results.all (fun r => r.success),
          results,
          results.length,
          (results.filter (fun r => r.success)).length,
          (results.filter (fun r => ¬ r.success)).length⟩,
        events)

/-- The file tree after `apply_batch`, whether it returned or raised. -/
def fsAfter (r : Except (PyExc × FS) (FS × BatchResult × List Event)) : FS :=
  match r with
  | .error (_, fs) => fs
  | .ok (fs, _, _) => fs

/-- The collected operation results of a completed `apply_batch` (empty
when it raised). -/
def resultsOf (r : Except (PyExc × FS) (FS × BatchResult × List Event)) : List OpResult :=
  match r with
  | .error _ => []
  | .ok (_, br, _) => br.operations

/-- Did the call return normally? -/
def exceptIsOk {ε α : Type} (r : Except ε α) : Bool :=
  match r with
  | .ok _ => true
  | .error _ => false

instance {ε α : Type} [DecidableEq ε] [DecidableEq α] : DecidableEq (Except ε α)
  | .ok a, .ok b => if h : a = b then .isTrue (by rw [h]) else .isFalse (by simp [h])
  | .ok _, .error _ => .isFalse (by simp)
  | .error _, .ok _ => .isFalse (by simp)
  | .error e, .error f => if h : e = f then .isTrue (by rw [h]) else .isFalse (by simp [h])

/-! ## Applying a unified diff

The repository produces diffs but never applies one, so diff application
is modelled from the spec ("Unified diff: standard textual delta
representation between two versions of the same file" and the round-trip
law of §8): first structurally — a hunk is a source start position plus
the ordered context/delete/add lines the generator emitted for one group
— and then textually, by parsing the serialized diff the way a standard
patch tool does (hunk bodies are read count-driven from the `@@` header
ranges; an entirely empty body line is accepted as an empty context
line). -/

/-- One line of a hunk body. -/
inductive DLine where
  | ctx (s : String)
  | del (s : String)
  | add (s : String)
deriving DecidableEq, Inhabited

/-- The body lines of one opcode, keeping their roles instead of
prefixing `' '`/`'-'`/`'+'`. -/
def opDLines (a b : List String) (c : Opcode) : List DLine :=
  match c.tag with
  | .equal => (seg a c.i1 c.i2).map .ctx
  | .replace => (seg a c.i1 c.i2).map .del ++ (seg b c.j1 c.j2).map .add
  | .delete => (seg a c.i1 c.i2).map .del
  | .insert => (seg b c.j1 c.j2).map .add

/-- A structural hunk: the (0-based) source line the hunk starts at and
its body. -/
structure Hunk where
  srcStart : Nat
  body : List DLine
deriving DecidableEq, Inhabited

/-- The hunks of the generated diff, one per group of opcodes, carrying
exactly the information the serialized hunk carries (start position from
the `@@` header, body lines in order). -/
def structHunks (a b : List String) : List Hunk :=
  (get_grouped_opcodes a b 3).map
    (fun g => ⟨(g.headD default).i1, (g.map (opDLines a b)).flatten⟩)

/-- Applying one hunk body to the source `a` from position `pos`:
context and delete lines must match the source line at the current
position; context and add lines are emitted.  Returns the position after
the hunk and the emitted lines. -/
def applyBody (a : List String) : Nat → List DLine → Option (Nat × List String)
  | pos, [] => some (pos, [])
  | pos, .ctx s :: rest =>
    match a.get? pos with
    | some x =>
      if x = s then (applyBody a (pos + 1) rest).map (fun r => (r.1, s :: r.2))
      else none
    | none => none
  | pos, .del s :: rest =>
    match a.get? pos with
    | some x => if x = s then applyBody a (pos + 1) rest else none
    | none => none
  | pos, .add s :: rest => (applyBody a pos rest).map (fun r => (r.1, s :: r.2))

/-- Applying a list of hunks (with ascending start positions) to `a`:
source lines before each hunk are copied verbatim, each hunk body is
applied, and the tail of the source is copied after the last hunk. -/
def applyHunks (a : List String) : Nat → List Hunk → Option (List String)
  | pos, [] => some (a.drop pos)
  | pos, h :: rest =>
    if pos ≤ h.srcStart then
      match applyBody a h.srcStart h.body with
      | some (pos', mid) =>
        (applyHunks a pos' rest).map (fun out => seg a pos h.srcStart ++ mid ++ out)
      | none => none
    else none

/-- Applying a structural diff to the pre-edit line sequence. -/
def applyStructuralDiff (a : List String) (hs : List Hunk) : Option (List String) :=
  applyHunks a 0 hs

/-- Splitting a character list at every occurrence of `sep` (at least one
chunk always results). -/
def splitCharC (sep : Char) : List Char → List (List Char)
  | [] => [[]]
  | c :: rest =>
    if c = sep then [] :: splitCharC sep rest
    else
      match splitCharC sep rest with
      | [] => [[c]]
      | h :: t => (c :: h) :: t

/-- Parsing a nonempty all-digit character list as a natural number. -/
def digitsToNat (cs : List Char) : Option Nat :=
  if cs ≠ [] ∧ cs.all (fun c => c.isDigit) then
    some (cs.foldl (fun n c => n * 10 + (c.toNat - 48)) 0)
  else none

/-- Parsing one side of a `@@ -start,count +start,count @@` header
(`"7"` abbreviates `"7,1"`). -/
def parseRange (s : List Char) : Option (Nat × Nat) :=
  match splitCharC ',' s with
  | [x] => (digitsToNat x).map (fun n => (n, 1))
  | [x, y] =>
    match digitsToNat x, digitsToNat y with
    | some n, some c => some (n, c)
    | _, _ => none
  | _ => none

/-- A parsed textual hunk. -/
structure TextHunk where
  oldStart : Nat
  oldCount : Nat
  newStart : Nat
  newCount : Nat
  body : List DLine
deriving DecidableEq, Inhabited

/-- Parsing a `@@ -A +B @@` hunk header line. -/
def parseHunkHeader (l : String) : Option ((Nat × Nat) × (Nat × Nat)) :=
  match splitCharC ' ' l.data with
  | [at1, o, n, at2] =>
    if at1 = ['@', '@'] ∧ at2 = ['@', '@'] then
      match o, n with
      | '-' :: od, '+' :: nd =>
        match parseRange od, parseRange nd with
        | some ro, some rn => some (ro, rn)
        | _, _ => none
      | _, _ => none
    else none
  | _ => none

/-- Count-driven reading of a hunk body: lines are classified by their
first character (a completely empty line counts as an empty context
line) until both the old and the new count are exhausted; over- or
under-runs make the diff malformed. -/
def readBody : Nat → Nat → List String → Option (List DLine × List String)
  | 0, 0, rest => some ([], rest)
  | oldN, newN, [] => if oldN = 0 ∧ newN = 0 then some ([], []) else none
  | oldN, newN, l :: rest =>
    match l.data with
    | [] =>
      if 0 < oldN ∧ 0 < newN then
        (readBody (oldN - 1) (newN - 1) rest).map (fun r => (DLine.ctx "" :: r.1, r.2))
      else none
    | ' ' :: content =>
      if 0 < oldN ∧ 0 < newN then
        (readBody (oldN - 1) (newN - 1) rest).map
          (fun r => (DLine.ctx (String.mk content) :: r.1, r.2))
      else none
    | '-' :: content =>
      if 0 < oldN then
        (readBody (oldN - 1) newN rest).map
          (fun r => (DLine.del (String.mk content) :: r.1, r.2))
      else none
    | '+' :: content =>
      if 0 < newN then
        (readBody oldN (newN - 1) rest).map
          (fun r => (DLine.add (String.mk content) :: r.1, r.2))
      else none
    | _ => none

/-- Parsing the hunks of a diff text (`gas` is a structural-recursion
bound; the caller passes the number of lines, which suffices since every
hunk consumes at least its header line).  After the last hunk only empty
lines may remain. -/
def parseHunksF : Nat → List String → Option (List TextHunk)
  | _, [] => some []
  | 0, _ => none
  | gas + 1, l :: rest =>
    if l = "" then if rest.all (fun x => x = "") then some [] else none
    else
      match parseHunkHeader l with
      | none => none
      | some ((os, oc), (ns, nc)) =>
        match readBody oc nc rest with
        | none => none
        | some (body, rest') =>
          (parseHunksF gas rest').map (fun hs => ⟨os, oc, ns, nc, body⟩ :: hs)

/-- Dropping the `---` / `+++` file header lines. -/
def dropFileHeaders : List String → List String
  | l1 :: l2 :: rest =>
    if ("--- ".data).isPrefixOf l1.data ∧ ("+++ ".data).isPrefixOf l2.data then rest
    else l1 :: l2 :: rest
  | l => l

/-- Applying parsed textual hunks to the source lines, tracking the
(0-based) current source position; a hunk with a nonzero old count
starts at `oldStart - 1`, one with a zero old count inserts after line
`oldStart`. -/
def applyTextHunks (a : List String) : Nat → List TextHunk → Option (List String)
  | pos, [] => some (a.drop pos)
  | pos, h :: rest =>
    let start := if h.oldCount = 0 then h.oldStart else h.oldStart - 1
    if pos ≤ start then
      match applyBody a start h.body with
      | some (pos', mid) =>
        (applyTextHunks a pos' rest).map (fun out => seg a pos start ++ mid ++ out)
      | none => none
    else none

/-- Modelled from the spec: standard unified-diff application of a
serialized diff text to the pre-edit file content (both treated as
`'\n'`-separated line sequences), as the round-trip law of §8 requires;
the repository itself contains no diff applier. -/
def applyUnifiedDiffText (pre : String) (diffText : String) : Option String :=
  let dl := dropFileHeaders (splitNl diffText)
  match parseHunksF dl.length dl with
  | none => none
  | some hunks =>
    (applyTextHunks (splitNl pre) 0 hunks).map (String.intercalate "\n")

/-! ## Specification predicates for the diff generator -/

/-- Soundness of a best match for `(a, b)` within the search box
`[alo, ahi) × [blo, bhi)`: the matched segments are genuinely equal and
in bounds. -/
def FlmValid (a b : List String) (alo ahi blo bhi : Nat) (m : FlmBest) : Prop :=
  alo ≤ m.besti ∧ blo ≤ m.bestj ∧ m.besti + m.bestsize ≤ ahi ∧
    m.bestj + m.bestsize ≤ bhi ∧
    seg a m.besti (m.besti + m.bestsize) = seg b m.bestj (m.bestj + m.bestsize)

/-- A dynamic-programming row entry `f j = k > 0` records a common
segment of length `k` of `a` and `b` ending at positions `i` and `j`
(inclusive), within the search box. -/
def MatchEnd (a b : List String) (alo ahi blo bhi : Nat) (i j k : Nat) : Prop :=
  alo + k ≤ i + 1 ∧ blo + k ≤ j + 1 ∧ i < ahi ∧ j < bhi ∧ j < b.length ∧
    seg a (i + 1 - k) (i + 1) = seg b (j + 1 - k) (j + 1)

/-- Soundness of a whole `j2len` row: `rowAfter` is one past the row the
entries describe. -/
def J2OK (a b : List String) (alo ahi blo bhi : Nat) (rowAfter : Nat)
    (f : Nat → Nat) : Prop :=
  ∀ j, 0 < f j → 1 ≤ rowAfter ∧ MatchEnd a b alo ahi blo bhi (rowAfter - 1) j (f j)

/-- A chained, in-box, genuinely-matching list of blocks: each block lies
inside `[loI, hiI) × [loJ, hiJ)`-style bounds, no two overlap, and the
matched segments are equal. -/
def BlocksIn (a b : List String) : Nat → Nat → Nat → Nat → List Block → Prop
  | _, _, _, _, [] => True
  | loI, hiI, loJ, hiJ, (x, y, k) :: rest =>
    loI ≤ x ∧ x + k ≤ hiI ∧ loJ ≤ y ∧ y + k ≤ hiJ ∧
      seg a x (x + k) = seg b y (y + k) ∧
      BlocksIn a b (x + k) hiI (y + k) hiJ rest

/-- The end position of a block list, starting from `(i, j)`. -/
def endOf : Nat → Nat → List Block → Nat × Nat
  | i, j, [] => (i, j)
  | _, _, (x, y, k) :: rest => endOf (x + k) (y + k) rest

/-- The per-tag facts an opcode carries: an equal opcode's segments are
genuinely equal and of the same length; a delete opcode inserts nothing
(`j1 = j2`); an insert opcode removes nothing (`i1 = i2`). -/
def TagOK (a b : List String) (c : Opcode) : Prop :=
  match c.tag with
  | .equal => seg a c.i1 c.i2 = seg b c.j1 c.j2 ∧ c.i2 - c.i1 = c.j2 - c.j1
  | .delete => c.j1 = c.j2
  | .insert => c.i1 = c.i2
  | .replace => True

/-- A list of opcodes tiling `[i, iE) × [j, jE)` contiguously, each with
its per-tag facts and in bounds. -/
def OpsSpec (a b : List String) : Nat → Nat → List Opcode → Nat → Nat → Prop
  | i, j, [], iE, jE => i = iE ∧ j = jE ∧ i ≤ a.length ∧ j ≤ b.length
  | i, j, c :: rest, iE, jE =>
    c.i1 = i ∧ c.j1 = j ∧ c.i1 ≤ c.i2 ∧ c.j1 ≤ c.j2 ∧
      c.i2 ≤ a.length ∧ c.j2 ≤ b.length ∧ TagOK a b c ∧
      OpsSpec a b c.i2 c.j2 rest iE jE

/-- Soundness of a grouped-opcode list with respect to `(a, b)`, with
`(pa, pb)` the positions already consumed: the source and target agree on
the gap before each group (and after the last one), and each group tiles
its span. -/
def GSpec (a b : List String) : Nat → Nat → List (List Opcode) → Prop
  | pa, pb, [] =>
    pa ≤ a.length ∧ pb ≤ b.length ∧ a.length - pa = b.length - pb ∧
      seg a pa a.length = seg b pb b.length
  | pa, pb, g :: rest =>
    ∃ sa sb ea eb,
      g ≠ [] ∧ pa ≤ sa ∧ pb ≤ sb ∧ sa - pa = sb - pb ∧
        seg a pa sa = seg b pb sb ∧ (g.headD default).i1 = sa ∧
        OpsSpec a b sa sb g ea eb ∧ GSpec a b ea eb rest

/-! ## String lemmas -/

theorem splitNlC_ne_nil (cs : List Char) : splitNlC cs ≠ [] := by
  induction cs with
  | nil => simp [splitNlC]
  | cons c rest ih =>
    simp only [splitNlC]
    split
    · simp
    · cases h : splitNlC rest <;> simp

theorem length_splitNlC (cs : List Char) :
    (splitNlC cs).length = cs.count '\n' + 1 := by
  induction cs with
  | nil => simp [splitNlC]
  | cons c rest ih =>
    simp only [splitNlC]
    by_cases hc : c = '\n'
    · subst hc
      simp [List.count_cons, ih]
    · rw [if_neg hc]
      cases h : splitNlC rest with
      | nil => exact absurd h (splitNlC_ne_nil rest)
      | cons x xs =>
        simp only [List.length_cons]
        rw [h] at ih
        simp only [List.length_cons] at ih
        simp [List.count_cons, hc, ih]

theorem not_nl_mem_splitNlC (cs : List Char) :
    ∀ l ∈ splitNlC cs, '\n' ∉ l := by
  induction cs with
  | nil => simp [splitNlC]
  | cons c rest ih =>
    simp only [splitNlC]
    by_cases hc : c = '\n'
    · subst hc
      simp only [if_pos rfl]
      intro l hl
      rcases List.mem_cons.mp hl with h | h
      · subst h; simp
      · exact ih l h
    · rw [if_neg hc]
      cases h : splitNlC rest with
      | nil => exact absurd h (splitNlC_ne_nil rest)
      | cons x xs =>
        intro l hl
        rcases List.mem_cons.mp hl with h' | h'
        · subst h'
          intro hmem
          rcases List.mem_cons.mp hmem with h'' | h''
          · exact hc h''.symm
          · exact ih x (h ▸ List.mem_cons_self x xs) h''
        · exact ih l (h ▸ List.mem_cons_of_mem x h')

theorem splitNlC_append_not_nl (p cs : List Char) (hp : '\n' ∉ p) :
    splitNlC (p ++ cs) =
      (p ++ (splitNlC cs).headD []) :: (splitNlC cs).tail := by
  induction p with
  | nil =>
    cases h : splitNlC cs with
    | nil => exact absurd h (splitNlC_ne_nil cs)
    | cons x xs => simp [h]
  | cons c p ih =>
    have hc : c ≠ '\n' := fun h => hp (h ▸ List.mem_cons_self c p)
    have hp' : '\n' ∉ p := fun h => hp (List.mem_cons_of_mem c h)
    show splitNlC (c :: (p ++ cs)) = _
    simp only [splitNlC, if_neg hc]
    rw [ih hp']
    simp

theorem splitNlC_joinNlC (L : List (List Char)) (hL : L ≠ [])
    (hnl : ∀ l ∈ L, '\n' ∉ l) : splitNlC (joinNlC L) = L := by
  induction L with
  | nil => exact absurd rfl hL
  | cons x xs ih =>
    cases xs with
    | nil =>
      have hx : '\n' ∉ x := hnl x (List.mem_cons_self x [])
      have h2 := splitNlC_append_not_nl x [] hx
      simp only [List.append_nil] at h2
      show splitNlC x = [x]
      rw [h2, show splitNlC ([] : List Char) = [[]] from rfl]
      simp
    | cons y ys =>
      have hx : '\n' ∉ x := hnl x (List.mem_cons_self x (y :: ys))
      have hrest : ∀ l ∈ y :: ys, '\n' ∉ l :=
        fun l hl => hnl l (List.mem_cons_of_mem x hl)
      have ihr := ih (by simp) hrest
      have hsplitnl : ∀ cs : List Char, splitNlC ('\n' :: cs) = [] :: splitNlC cs := by
        intro cs
        show (if '\n' = '\n' then [] :: splitNlC cs else _) = _
        rw [if_pos rfl]
      simp only [joinNlC]
      rw [show x ++ '\n' :: joinNlC (y :: ys) = x ++ ('\n' :: joinNlC (y :: ys)) from rfl,
        splitNlC_append_not_nl x _ hx, hsplitnl, ihr]
      simp

theorem dropLast_append_ne_nil {α : Type} (p q : List α) (hq : q ≠ []) :
    (p ++ q).dropLast = p ++ q.dropLast := by
  induction p with
  | nil => simp
  | cons c p ih =>
    have hne : p ++ q ≠ [] := fun h => hq (List.append_eq_nil.mp h).2
    simp only [List.cons_append, List.dropLast_cons_of_ne_nil hne, ih]

theorem mem_dropLast_of_append {α : Type} {x : α} {p q l : List α}
    (hx : x ∈ p) (hl : p ++ q = l) (hq : q ≠ []) : x ∈ l.dropLast := by
  subst hl
  rw [dropLast_append_ne_nil p q hq]
  exact List.mem_append_left _ hx

theorem readlinesC_not_nl_dropLast (s : List Char) :
    ∀ l ∈ readlinesC s, '\n' ∉ l.dropLast := by
  have key : ∀ (L : List (List Char)), (∀ l ∈ L, '\n' ∉ l) →
      ∀ l ∈ readlinesAux L, '\n' ∉ l.dropLast := by
    intro L
    induction L with
    | nil => simp [readlinesAux]
    | cons x xs ih =>
      intro hnl l hl
      cases xs with
      | nil =>
        simp only [readlinesAux] at hl
        split at hl
        · simp at hl
        · simp only [List.mem_singleton] at hl
          subst hl
          intro hc
          exact hnl l (List.mem_cons_self l []) (List.dropLast_sublist l |>.mem hc)
      | cons y ys =>
        simp only [readlinesAux] at hl
        rcases List.mem_cons.mp hl with h | h
        · subst h
          rw [dropLast_append_ne_nil x ['\n'] (by simp)]
          simp only [List.dropLast_single, List.append_nil]
          exact hnl x (List.mem_cons_self x (y :: ys))
        · exact ih (fun l hl' => hnl l (List.mem_cons_of_mem x hl')) l h
  exact key (splitNlC s) (not_nl_mem_splitNlC s)

theorem pyLstripC_mem {c : Char} {cs : List Char} (h : c ∈ pyLstripC cs) : c ∈ cs :=
  (@List.dropWhile_sublist _ cs pyIsSpace).mem h

theorem indent_not_nl (o : List Char) (hstrip : pyStripC o ≠ [])
    (hnl : '\n' ∉ o.dropLast) :
    '\n' ∉ o.take (o.length - (pyLstripC o).length) := by
  intro hmem
  have hlen : (o.takeWhile pyIsSpace).length = o.length - (pyLstripC o).length := by
    have hadd : (o.takeWhile pyIsSpace).length + (o.dropWhile pyIsSpace).length = o.length := by
      rw [← List.length_append, List.takeWhile_append_dropWhile]
    unfold pyLstripC
    omega
  have htw : o.take (o.length - (pyLstripC o).length) = o.takeWhile pyIsSpace :=
    calc o.take (o.length - (pyLstripC o).length)
        = (o.takeWhile pyIsSpace ++ o.dropWhile pyIsSpace).take
            (o.length - (pyLstripC o).length) := by
          rw [List.takeWhile_append_dropWhile]
      _ = o.takeWhile pyIsSpace := List.take_left' hlen
  rw [htw] at hmem
  have hlstrip_ne : pyLstripC o ≠ [] := by
    intro h0
    apply hstrip
    unfold pyStripC
    rw [h0]
    simp
  have hsplit : o.takeWhile pyIsSpace ++ pyLstripC o = o :=
    List.takeWhile_append_dropWhile pyIsSpace o
  exact hnl (mem_dropLast_of_append hmem hsplit hlstrip_ne)

theorem countLines_mk (cs : List Char) : countLines (String.mk cs) = (splitNlC cs).length := rfl

theorem countLines_preserve (orig new_content : String)
    (hnl : '\n' ∉ orig.data.dropLast) :
    countLines (preserve_indentation orig new_content) = countLines new_content := by
  unfold preserve_indentation
  split
  · rfl
  · rename_i hstrip
    cases h : splitNlC new_content.data with
    | nil => exact absurd h (splitNlC_ne_nil _)
    | cons f rest =>
      rw [countLines_mk]
      have hjoin : splitNlC (joinNlC ((orig.data.take
          (orig.data.length - (pyLstripC orig.data).length) ++ pyLstripC f) :: rest)) =
          (orig.data.take (orig.data.length - (pyLstripC orig.data).length) ++ pyLstripC f) :: rest := by
        apply splitNlC_joinNlC _ (by simp)
        intro l hl
        rcases List.mem_cons.mp hl with h' | h'
        · subst h'
          intro hmem
          rcases List.mem_append.mp hmem with h'' | h''
          · exact indent_not_nl orig.data hstrip hnl h''
          · exact not_nl_mem_splitNlC new_content.data f
              (h ▸ List.mem_cons_self f rest) (pyLstripC_mem h'')
        · exact not_nl_mem_splitNlC new_content.data l (h ▸ List.mem_cons_of_mem f h')
      rw [hjoin]
      unfold countLines
      rw [h]
      simp

theorem pySliceTo_length {α : Type} (l : List α) (k : Int) (h0 : 0 ≤ k)
    (hk : k ≤ (l.length : Int)) : ((pySliceTo l k).length : Int) = k := by
  unfold pySliceTo
  rw [if_neg (by omega)]
  simp only [List.length_take]
  omega

theorem pySliceFrom_length {α : Type} (l : List α) (k : Int) (h0 : 0 ≤ k) :
    ((pySliceFrom l k).length : Int) = max ((l.length : Int) - k) 0 := by
  unfold pySliceFrom
  rw [if_neg (by omega)]
  simp only [List.length_drop]
  omega

theorem readlinesS_not_nl (s : String) (x : String) (hx : x ∈ readlinesS s) :
    '\n' ∉ x.data.dropLast := by
  unfold readlinesS at hx
  rcases List.mem_map.mp hx with ⟨l, hl, rfl⟩
  exact readlinesC_not_nl_dropLast s.data l hl

theorem length_splitNl (c : String) : (splitNl c).length = countLines c := by
  simp [splitNl, countLines]

theorem numLines_readlinesS (s : String) : (readlinesS s).length = numLines s := by
  simp [readlinesS, numLines]

/-! ## Line-editor claims -/

/-- Claim C2: for every file of `N` lines and every content string,
`replace_block(start, end, content)` with `1 ≤ start ≤ end ≤ N` succeeds
and produces a buffer of exactly `N - (end - start + 1) + lines(content)`
lines, where `lines(content)` is the number of fields of
`content.split("\n")` (i.e. one more than the number of newline
characters in the content, which is how the source splits it). -/
theorem claim_C2 (path fileContent new_content : String) (s e : Int)
    (preserve_indent : Bool) (h1 : 1 ≤ s) (h2 : s ≤ e)
    (h3 : e ≤ (numLines fileContent : Int)) :
    ∃ ls d, replace_block path fileContent s e new_content preserve_indent = .ok (ls, d) ∧
      (ls.length : Int) =
        (numLines fileContent : Int) - (e - s + 1) + (countLines new_content : Int) := by
  have hN : ((readlinesS fileContent).length : Int) = (numLines fileContent : Int) := by
    rw [numLines_readlinesS]
  unfold replace_block
  rw [if_neg (by omega)]
  refine ⟨_, _, rfl, ?_⟩
  have hcontentLines : ∀ content : String,
      countLines (if preserve_indent ∧ s - 1 < ((readlinesS fileContent).length : Int) then
        preserve_indentation ((readlinesS fileContent).getD (s - 1).toNat "") content
      else content) = countLines content := by
    intro content
    split
    · rename_i hcond
      apply countLines_preserve
      have hlt : (s - 1).toNat < (readlinesS fileContent).length := by omega
      rw [List.getD_eq_getElem _ _ hlt]
      exact readlinesS_not_nl fileContent _ (List.getElem_mem hlt)
    · rfl
  set content := (if preserve_indent ∧ s - 1 < ((readlinesS fileContent).length : Int) then
      preserve_indentation ((readlinesS fileContent).getD (s - 1).toNat "") new_content
    else new_content) with hcdef
  have hnewlen : ∀ nl : List String,
      ((if nl ≠ [] ∧ ¬ endswithNl content then nl
        else nl.map (fun l => if ¬ endswithNl l then l ++ "\n" else l)).length : Int) =
        (nl.length : Int) := by
    intro nl
    split
    · rfl
    · simp
  have hsplitlen : ((splitNl content).length : Int) = (countLines new_content : Int) := by
    rw [length_splitNl, hcontentLines new_content]
  have hd : ((if splitNl content ≠ [] ∧ ¬ endswithNl content then splitNl content
      else (splitNl content).map (fun l => if ¬ endswithNl l then l ++ "\n" else l)).length : Int) =
      (countLines new_content : Int) :=
    (hnewlen (splitNl content)).trans hsplitlen
  have hto : ((pySliceTo (readlinesS fileContent) (s - 1)).length : Int) = s - 1 :=
    pySliceTo_length _ _ (by omega) (by omega)
  have hfrom : ((pySliceFrom (readlinesS fileContent) e).length : Int) =
      max (((readlinesS fileContent).length : Int) - e) 0 :=
    pySliceFrom_length _ _ (by omega)
  rw [max_eq_left (by omega)] at hfrom
  simp only [List.length_append]
  push_cast
  push_cast at hto hfrom hd
  omega

/-- Claim C2 witness: a three-line file, `start = 2`, `end = 2` and a
two-line content produce `3 - 1 + 2 = 4` lines. -/
theorem claim_C2_witness :
    (1 : Int) ≤ 2 ∧ (2 : Int) ≤ 2 ∧ (2 : Int) ≤ (numLines "a\nb\nc\n" : Int) ∧
      ∃ ls d, replace_block "f.py" "a\nb\nc\n" 2 2 "x\ny" true = .ok (ls, d) ∧
        (ls.length : Int) =
          (numLines "a\nb\nc\n" : Int) - (2 - 2 + 1) + (countLines "x\ny" : Int) :=
  ⟨by norm_num, by norm_num, by decide,
    claim_C2 "f.py" "a\nb\nc\n" "x\ny" 2 2 true (by norm_num) (by norm_num) (by decide)⟩

/-- Claim C3 (counterexample): `replace_block` does **not** fail when
`start > end`: on a three-line file, `start = 3, end = 1` returns
successfully (no range error is raised), contradicting "fails ...
whenever start > end". -/
theorem claim_C3_counterexample :
    exceptIsOk (replace_block "f.py" "a\nb\nc\n" 3 1 "X\n" true) = true := by
  rfl

/-- Claim C3 (amended): `replace_block(file, start, end, content)` fails
with the range error naming the requested range and the actual line
count exactly when `start < 1` or `end > lineCount`; the source performs
no `start ≤ end` check, so a start beyond the end (within those bounds)
succeeds. -/
theorem claim_C3 (path fileContent new_content : String) (s e : Int)
    (preserve_indent : Bool) (m : String) :
    replace_block path fileContent s e new_content preserve_indent = .error m ↔
      (s < 1 ∨ (numLines fileContent : Int) < e) ∧
        m = range_error_msg s e (numLines fileContent) := by
  unfold replace_block
  dsimp only
  rw [numLines_readlinesS fileContent]
  split
  · rename_i hcond
    constructor
    · intro h
      refine ⟨by omega, ?_⟩
      cases h
      rfl
    · intro ⟨_, hm⟩
      rw [hm]
  · rename_i hcond
    constructor
    · intro h
      exact absurd h (by simp)
    · intro ⟨habs, _⟩
      omega

/-! ## Batch orchestrator lemmas -/

theorem apply_operation_dryRun (tso : String → TsInvocation) (gid : String)
    (fs : FS) (operation : PatchOperation) (fs2 : FS) (r : OpResult)
    (h : apply_operation ⟨true, tso, gid⟩ fs operation = .ok (fs2, r)) :
    fs2 = fs ∧ (r.success = true → r.diff ≠ none) := by
  unfold apply_operation at h
  split at h
  · exact absurd h (by simp)
  · split at h
    · exact absurd h (by simp)
    · split at h
      · rw [Except.ok.injEq, Prod.mk.injEq] at h
        refine ⟨h.1.symm, ?_⟩
        rw [← h.2]
        simp
      · rw [Except.ok.injEq, Prod.mk.injEq] at h
        refine ⟨?_, ?_⟩
        · rw [← h.1]
          unfold write_file
          rw [if_pos rfl]
        · rw [← h.2]
          simp

theorem apply_ops_dryRun (tso : String → TsInvocation) (gid : String)
    (patch_id : String) (total : Nat) (ops : List PatchOperation) :
    ∀ (fs : FS) (i : Nat),
      (match apply_ops ⟨true, tso, gid⟩ patch_id total fs ops i with
      | .error (_, fsE) => fsE = fs
      | .ok (fs', rs, _) => fs' = fs ∧ ∀ r ∈ rs, r.success = true → r.diff ≠ none) := by
  induction ops with
  | nil => intro fs i; simp [apply_ops]
  | cons operation rest ih =>
    intro fs i
    unfold apply_ops
    cases hop : apply_operation ⟨true, tso, gid⟩ fs operation with
    | error e => dsimp only
    | ok p =>
      obtain ⟨fs1, r⟩ := p
      dsimp only
      obtain ⟨hfs1, hr⟩ := apply_operation_dryRun tso gid fs operation fs1 r hop
      subst hfs1
      have ihr := ih fs1 (i + 1)
      cases hrest : apply_ops ⟨true, tso, gid⟩ patch_id total fs1 rest (i + 1) with
      | error ef =>
        obtain ⟨e1, fsE⟩ := ef
        rw [hrest] at ihr
        dsimp only at ihr ⊢
        exact ihr
      | ok q =>
        obtain ⟨fs2, rs, es⟩ := q
        rw [hrest] at ihr
        dsimp only at ihr ⊢
        refine ⟨ihr.1, ?_⟩
        intro x hx
        rcases List.mem_cons.mp hx with h' | h'
        · subst h'; exact hr
        · exact ihr.2 x h'

/-- Claim C7: with dry-run set, `apply_batch` leaves every file's content
unchanged — whether it completes or an exception escapes — while each
successful operation's result still carries its computed unified diff. -/
theorem claim_C7 (tso : String → TsInvocation) (gid : String) (fs : FS)
    (batch : PatchBatch) (schemaFile : Option (Except String TaskSchema)) :
    fsAfter (apply_batch ⟨true, tso, gid⟩ fs batch schemaFile) = fs ∧
      ∀ r ∈ resultsOf (apply_batch ⟨true, tso, gid⟩ fs batch schemaFile),
        r.success = true → r.diff ≠ none := by
  unfold apply_batch
  cases hval : validate_against_task_schema schemaFile batch with
  | error e => exact ⟨rfl, by dsimp only [resultsOf]; simp⟩
  | ok u =>
    cases u
    dsimp only
    have h := apply_ops_dryRun tso gid (effPatchId ⟨true, tso, gid⟩ batch)
      batch.patches.length batch.patches fs 0
    cases hops : apply_ops ⟨true, tso, gid⟩ (effPatchId ⟨true, tso, gid⟩ batch)
        batch.patches.length fs batch.patches 0 with
    | error ef =>
      obtain ⟨e1, fsE⟩ := ef
      rw [hops] at h
      dsimp only at h
      exact ⟨h, by dsimp only [resultsOf]; simp⟩
    | ok q =>
      obtain ⟨fs', rs, es⟩ := q
      rw [hops] at h
      dsimp only at h
      exact ⟨h.1, h.2⟩

/-- Claim C7 witness: a concrete dry-run batch (one `append` on an
existing file) leaves the one-file tree unchanged while the successful
result still carries a diff. -/
theorem claim_C7_witness :
    fsAfter (apply_batch ⟨true, fun _ => .binMissing, "p"⟩ [("ok.py", "x = 1\n")]
        { orderId := some "b7", patches := [
            { op := "append", file := "ok.py", block := some "z\n" }] } none) =
      [("ok.py", "x = 1\n")] ∧
    ∀ r ∈ resultsOf (apply_batch ⟨true, fun _ => .binMissing, "p"⟩ [("ok.py", "x = 1\n")]
        { orderId := some "b7", patches := [
            { op := "append", file := "ok.py", block := some "z\n" }] } none),
      r.success = true → r.diff ≠ none :=
  claim_C7 (fun _ => .binMissing) "p" [("ok.py", "x = 1\n")]
    { orderId := some "b7", patches := [
        { op := "append", file := "ok.py", block := some "z\n" }] } none

/-- Claim C1 (the code, evaluated at the failing inputs): a batch whose
first operation targets a missing file, and one whose first operation has
neither `block` nor `blockFile`, both abort `apply_batch` with an
uncaught exception — the second operation is never applied and no result
list is produced, because `apply_operation` raises these errors *before*
its `try` block. -/
theorem claim_C1 :
    apply_batch ⟨false, fun _ => .binMissing, "p"⟩ [("ok.py", "x = 1\n")]
      { orderId := some "b1", patches := [
          { op := "replace-block", file := "missing.py", start := some 1, end_ := some 1,
            block := some "y\n" },
          { op := "append", file := "ok.py", block := some "z\n" }] } none =
      .error (.fileNotFound "File not found: missing.py", [("ok.py", "x = 1\n")]) ∧
    apply_batch ⟨false, fun _ => .binMissing, "p"⟩ [("ok.py", "x = 1\n")]
      { orderId := some "b1", patches := [
          { op := "append", file := "ok.py" },
          { op := "append", file := "ok.py", block := some "z\n" }] } none =
      .error (.valueError "Either 'block' or 'blockFile' must be provided",
        [("ok.py", "x = 1\n")]) :=
  ⟨rfl, rfl⟩

/-- Claim C4 (counterexample): a timed-out checker invocation is recorded
as `False` — the same value as a failed check — not as the
not-applicable `None` the claim requires; an operation on a `.ts` file
whose check times out gets `ts_check_ok = False` in its result. -/
theorem claim_C4_counterexample :
    check_typescript .timeout = some false ∧ (some false : Option Bool) ≠ none ∧
      (apply_operation ⟨false, fun _ => .timeout, "p"⟩ [("a.ts", "x\n")]
        { op := "append", file := "a.ts", block := some "y\n" }).map
          (fun r => r.2.ts_check_ok) = .ok (some false) :=
  ⟨rfl, by simp, by rfl⟩

/-- Claim C4 (amended): the adapter reports not-applicable (`None`) when
the checker binary is absent, but a timed-out invocation is recorded as
fail (`False`), exactly like a check that ran and found errors. -/
theorem claim_C4 :
    check_typescript .binMissing = none ∧ check_typescript .timeout = some false ∧
      check_typescript (.completed 0) = some true ∧
      check_typescript (.completed 2) = some false :=
  ⟨rfl, rfl, rfl, rfl⟩

theorem apply_ops_events (cfg : Config) (patch_id : String) (total : Nat)
    (ops : List PatchOperation) :
    ∀ (fs : FS) (i : Nat) (fs' : FS) (rs : List OpResult) (evs : List Event),
      apply_ops cfg patch_id total fs ops i = .ok (fs', rs, evs) →
        evs.length = (rs.filter (fun r => r.success)).length ∧
          ∀ ev ∈ evs, ev.status = "applied" ∧ ev.patch_id = patch_id := by
  induction ops with
  | nil =>
    intro fs i fs' rs evs h
    unfold apply_ops at h
    rw [Except.ok.injEq] at h
    obtain ⟨rfl, rfl, rfl⟩ := h
    simp
  | cons operation rest ih =>
    intro fs i fs' rs evs h
    unfold apply_ops at h
    cases hop : apply_operation cfg fs operation with
    | error e => rw [hop] at h; exact absurd h (by simp)
    | ok p =>
      obtain ⟨fs1, r⟩ := p
      rw [hop] at h
      dsimp only at h
      cases hrest : apply_ops cfg patch_id total fs1 rest (i + 1) with
      | error ef => rw [hrest] at h; exact absurd h (by simp)
      | ok q =>
        obtain ⟨fs2, rs2, es2⟩ := q
        rw [hrest] at h
        rw [Except.ok.injEq, Prod.mk.injEq, Prod.mk.injEq] at h
        obtain ⟨h1, h2, h3⟩ := h
        obtain ⟨ihlen, ihev⟩ := ih fs1 (i + 1) fs2 rs2 es2 hrest
        rw [← h2, ← h3]
        constructor
        · cases hs : r.success with
          | true => simp [hs, List.filter_cons, ihlen]
          | false => simp [hs, List.filter_cons, ihlen]
        · intro ev hev
          rcases List.mem_append.mp hev with h' | h'
          · cases hs : r.success with
            | true =>
              rw [hs] at h'
              have hev2 : ev = mkEvent patch_id operation r i total := by
                simpa using h'
              subst hev2
              exact ⟨rfl, rfl⟩
            | false =>
              rw [hs] at h'
              simp at h'
          · exact ihev ev h'

/-- Claim C5 (counterexample): a batch whose single operation completes
with a *failure* (an out-of-range `replace-block`, caught inside
`apply_operation`) emits **zero** lifecycle events even though one
operation completed — contradicting "exactly one event per completed
operation, for successful and failed operations alike". -/
theorem claim_C5_counterexample :
    apply_batch ⟨false, fun _ => .binMissing, "p"⟩ [("ok.py", "x = 1\n")]
      { orderId := some "b5", patches := [
          { op := "replace-block", file := "ok.py", start := some 0, end_ := some 1,
            block := some "y\n" }] } none =
      .ok ([("ok.py", "x = 1\n")],
        ⟨"b5", false,
          [⟨false, "ok.py", "replace-block", none, some false,
            some "Line numbers out of range: 0-1 (file has 1 lines)"⟩], 1, 0, 1⟩,
        []) :=
  rfl

/-- Claim C5 (amended): for every batch that completes, exactly one
lifecycle event is emitted per **successful** operation — each carrying
the batch id, file, op kind and status `"applied"` — and none for a
failed operation. -/
theorem claim_C5 (cfg : Config) (fs : FS) (batch : PatchBatch)
    (schemaFile : Option (Except String TaskSchema)) (fs' : FS)
    (br : BatchResult) (evs : List Event)
    (h : apply_batch cfg fs batch schemaFile = .ok (fs', br, evs)) :
    evs.length = br.succeeded ∧
      ∀ ev ∈ evs, ev.status = "applied" ∧ ev.patch_id = br.patch_id := by
  unfold apply_batch at h
  cases hval : validate_against_task_schema schemaFile batch with
  | error e => rw [hval] at h; exact absurd h (by simp)
  | ok u =>
    cases u
    rw [hval] at h
    dsimp only at h
    cases hops : apply_ops cfg (effPatchId cfg batch) batch.patches.length fs batch.patches 0 with
    | error ef => rw [hops] at h; exact absurd h (by simp)
    | ok q =>
      obtain ⟨fs2, rs, es⟩ := q
      rw [hops] at h
      rw [Except.ok.injEq, Prod.mk.injEq, Prod.mk.injEq] at h
      obtain ⟨h1, h2, h3⟩ := h
      obtain ⟨hlen, hev⟩ :=
        apply_ops_events cfg (effPatchId cfg batch) batch.patches.length
          batch.patches fs 0 fs2 rs es hops
      rw [← h2, ← h3]
      exact ⟨hlen, hev⟩

/-- Claim C5 witness: a one-operation successful batch emits exactly one
event, carrying the batch id and status `"applied"`. -/
theorem claim_C5_witness :
    ([⟨"b7", "ok.py", "append", "applied", none, none, 0, 1⟩] : List Event).length =
      (⟨"b7", true, [⟨true, "ok.py", "append",
          some "--- ok.py\n+++ ok.py\n@@ -1 +1,3 @@\n x = 1\n\n+z\n\n+", none, none⟩],
        1, 1, 0⟩ : BatchResult).succeeded ∧
      ∀ ev ∈ ([⟨"b7", "ok.py", "append", "applied", none, none, 0, 1⟩] : List Event),
        ev.status = "applied" ∧
          ev.patch_id = (⟨"b7", true, [⟨true, "ok.py", "append",
              some "--- ok.py\n+++ ok.py\n@@ -1 +1,3 @@\n x = 1\n\n+z\n\n+", none, none⟩],
            1, 1, 0⟩ : BatchResult).patch_id :=
  claim_C5 ⟨false, fun _ => .binMissing, "p"⟩ [("ok.py", "x = 1\n")]
    { orderId := some "b7", patches := [
        { op := "append", file := "ok.py", block := some "z\n" }] } none
    [("ok.py", "x = 1\nz\n")] _ _ rfl

/-! ## Schema-validation claims -/

theorem validate_ops_error_of_mem (tasks : List TaskDef) (operation : PatchOperation)
    (tid : String) (task_def : TaskDef) (hid : effTaskId operation = some tid)
    (hfind : tasks.find? (fun t => t.id = tid) = some task_def)
    (hne : task_def.files ≠ []) (hnotin : operation.file ∉ task_def.files) :
    ∀ (ops : List PatchOperation) (i : Nat), operation ∈ ops →
      ∃ m, validate_ops tasks ops i = .error m := by
  intro ops
  induction ops with
  | nil => intro i h; simp at h
  | cons head rest ih =>
    intro i hmem
    rcases List.mem_cons.mp hmem with heq | hmem'
    · subst heq
      unfold validate_ops
      rw [hid]
      dsimp only
      rw [hfind]
      dsimp only
      rw [if_pos ⟨hne, hnotin⟩]
      exact ⟨_, rfl⟩
    · unfold validate_ops
      cases heff : effTaskId head with
      | none => exact ih (i + 1) hmem'
      | some tid' =>
        dsimp only
        cases hfind' : tasks.find? (fun t => t.id = tid') with
        | none => exact ih (i + 1) hmem'
        | some td' =>
          dsimp only
          split
          · exact ⟨_, rfl⟩
          · split
            · exact ⟨_, rfl⟩
            · exact ih (i + 1) hmem'

/-- Claim C6: with a parsed schema declaring a task whose allowed-files
list is non-empty, a batch containing an operation naming that task but
targeting a file outside the list makes `apply_batch` abort with the
(wrapped) validation `ValueError` *before any file is modified*: the
returned file tree is exactly the input tree and no operation result is
produced. -/
theorem claim_C6 (cfg : Config) (fs : FS) (batch : PatchBatch) (sch : TaskSchema)
    (operation : PatchOperation) (tid : String) (task_def : TaskDef)
    (hop : operation ∈ batch.patches) (hid : effTaskId operation = some tid)
    (hfind : sch.tasks.find? (fun t => t.id = tid) = some task_def)
    (hne : task_def.files ≠ []) (hnotin : operation.file ∉ task_def.files) :
    ∃ msg, apply_batch cfg fs batch (some (.ok sch)) = .error (.valueError msg, fs) := by
  obtain ⟨m, hm⟩ :=
    validate_ops_error_of_mem sch.tasks operation tid task_def hid hfind hne hnotin
      batch.patches 0 hop
  refine ⟨"Task schema validation failed: " ++ m, ?_⟩
  unfold apply_batch validate_against_task_schema
  dsimp only
  rw [hm]

/-- Claim C6 witness: schema task `"1" → files ["a.py"]`, one operation
with `taskId = "1"` on `b.py`: the batch aborts pre-mutation. -/
theorem claim_C6_witness :
    ∃ msg,
      apply_batch ⟨false, fun _ => .binMissing, "p"⟩ [("b.py", "x\n")]
        { patches := [{ op := "append", file := "b.py", block := some "z\n", taskId := some "1" }] }
        (some (.ok ⟨[⟨"1", ["a.py"], []⟩]⟩)) =
      .error (.valueError msg, [("b.py", "x\n")]) :=
  claim_C6 ⟨false, fun _ => .binMissing, "p"⟩ [("b.py", "x\n")]
    { patches := [{ op := "append", file := "b.py", block := some "z\n", taskId := some "1" }] }
    ⟨[⟨"1", ["a.py"], []⟩]⟩
    { op := "append", file := "b.py", block := some "z\n", taskId := some "1" }
    "1" ⟨"1", ["a.py"], []⟩ (List.mem_singleton.mpr rfl) rfl rfl (by simp) (by simp)

theorem validate_ops_ok_of_soft (tasks : List TaskDef) :
    ∀ (ops : List PatchOperation) (i : Nat),
      (∀ operation ∈ ops,
        match effTaskId operation with
        | none => True
        | some tid =>
          match tasks.find? (fun t => t.id = tid) with
          | none => True
          | some task_def =>
            (task_def.files = [] ∨ operation.file ∈ task_def.files) ∧
              (task_def.allowedOperations = [] ∨ operation.op ∈ task_def.allowedOperations)) →
      validate_ops tasks ops i = .ok () := by
  intro ops
  induction ops with
  | nil => intro i h; rfl
  | cons head rest ih =>
    intro i h
    have hh := h head (List.mem_cons_self head rest)
    have hrest := fun operation hmem => h operation (List.mem_cons_of_mem head hmem)
    unfold validate_ops
    cases heff : effTaskId head with
    | none => exact ih (i + 1) hrest
    | some tid =>
      rw [heff] at hh
      dsimp only at hh ⊢
      cases hfind : tasks.find? (fun t => t.id = tid) with
      | none => exact ih (i + 1) hrest
      | some td =>
        rw [hfind] at hh
        dsimp only at hh ⊢
        rw [if_neg, if_neg]
        · exact ih (i + 1) hrest
        · rintro ⟨hne, hnotin⟩
          rcases hh.2 with h0 | h0
          · exact hne h0
          · exact hnotin h0
        · rintro ⟨hne, hnotin⟩
          rcases hh.1 with h0 | h0
          · exact hne h0
          · exact hnotin h0

/-- Claim C8: with a parsed schema, an operation whose task id is not
declared in the schema never fails validation; validation succeeds (and
the batch is applied exactly as with no schema) whenever no operation has
an explicit allow-list mismatch — i.e. whenever every operation whose
task id *is* found passes the file and op-kind checks. -/
theorem claim_C8 (cfg : Config) (fs : FS) (batch : PatchBatch) (sch : TaskSchema)
    (h : ∀ operation ∈ batch.patches,
      match effTaskId operation with
      | none => True
      | some tid =>
        match sch.tasks.find? (fun t => t.id = tid) with
        | none => True
        | some task_def =>
          (task_def.files = [] ∨ operation.file ∈ task_def.files) ∧
            (task_def.allowedOperations = [] ∨ operation.op ∈ task_def.allowedOperations)) :
    validate_against_task_schema (some (.ok sch)) batch = .ok () ∧
      apply_batch cfg fs batch (some (.ok sch)) = apply_batch cfg fs batch none := by
  have hok := validate_ops_ok_of_soft sch.tasks batch.patches 0 h
  constructor
  · unfold validate_against_task_schema
    dsimp only
    rw [hok]
  · unfold apply_batch validate_against_task_schema
    dsimp only
    rw [hok]

/-- Claim C8 witness: a schema declaring only task `"1"` and a batch
whose single operation carries the unknown task id `"2"`: validation
succeeds and the batch behaves as if no schema were present. -/
theorem claim_C8_witness :
    validate_against_task_schema (some (.ok ⟨[⟨"1", ["a.py"], []⟩]⟩))
        { patches := [{ op := "append", file := "b.py", block := some "z\n", taskId := some "2" }] } =
        .ok () ∧
      apply_batch ⟨false, fun _ => .binMissing, "p"⟩ [("b.py", "x\n")]
          { patches := [{ op := "append", file := "b.py", block := some "z\n", taskId := some "2" }] }
          (some (.ok ⟨[⟨"1", ["a.py"], []⟩]⟩)) =
        apply_batch ⟨false, fun _ => .binMissing, "p"⟩ [("b.py", "x\n")]
          { patches := [{ op := "append", file := "b.py", block := some "z\n", taskId := some "2" }] }
          none :=
  claim_C8 ⟨false, fun _ => .binMissing, "p"⟩ [("b.py", "x\n")]
    { patches := [{ op := "append", file := "b.py", block := some "z\n", taskId := some "2" }] }
    ⟨[⟨"1", ["a.py"], []⟩]⟩
    (by
      intro operation hmem
      cases List.mem_singleton.mp hmem
      trivial)

/-- Claim C10: a schema file that exists but holds invalid JSON (the
`json.JSONDecodeError` is caught and only warned about) changes nothing:
`apply_batch` behaves exactly as if no schema file were present. -/
theorem claim_C10 (cfg : Config) (fs : FS) (batch : PatchBatch) (e : String) :
    apply_batch cfg fs batch (some (.error e)) = apply_batch cfg fs batch none := rfl

/-! ## Segment lemmas -/

theorem seg_self {α : Type} (l : List α) (i : Nat) : seg l i i = [] := by
  simp [seg]

theorem seg_getElem? {α : Type} (l : List α) (i j t : Nat) :
    (seg l i j)[t]? = if t < j - i then l[i + t]? else none := by
  unfold seg
  rw [List.getElem?_take]
  split
  · rw [List.getElem?_drop]
  · rfl

theorem seg_append {α : Type} (l : List α) {i j k : Nat} (hij : i ≤ j) (hjk : j ≤ k) :
    seg l i j ++ seg l j k = seg l i k := by
  unfold seg
  have h1 : k - i = (j - i) + (k - j) := by omega
  rw [h1, List.take_add]
  congr 2
  rw [List.drop_drop]
  congr 1
  omega

theorem seg_len {α : Type} (l : List α) {i j : Nat} (hij : i ≤ j) (hj : j ≤ l.length) :
    (seg l i j).length = j - i := by
  unfold seg
  rw [List.length_take, List.length_drop]
  omega

theorem seg_cons {α : Type} (l : List α) {i j : Nat} (hij : i < j) (hi : i < l.length) :
    seg l i j = l[i] :: seg l (i + 1) j := by
  unfold seg
  rw [List.drop_eq_getElem_cons hi]
  have h1 : j - i = (j - (i + 1)) + 1 := by omega
  rw [h1, List.take_succ_cons]

theorem seg_singleton {α : Type} (l : List α) {i : Nat} (hi : i < l.length) :
    seg l i (i + 1) = [l[i]] := by
  rw [seg_cons l (Nat.lt_succ_self i) hi, seg_self]

theorem seg_full {α : Type} (l : List α) : seg l 0 l.length = l := by
  simp [seg]

theorem seg_drop {α : Type} (l : List α) {i : Nat} (hi : i ≤ l.length) :
    l.drop i = seg l i l.length := by
  unfold seg
  rw [List.take_of_length_le]
  rw [List.length_drop]

theorem seg_sub {α : Type} (a b : List α) {i1 i2 j1 j2 : Nat}
    (hgen : seg a i1 i2 = seg b j1 j2) (hlen : i2 - i1 = j2 - j1)
    {p q : Nat} (hp : i1 ≤ p) (hpq : p ≤ q) (hq : q ≤ i2) :
    seg a p q = seg b (j1 + (p - i1)) (j1 + (q - i1)) := by
  apply List.ext_getElem?
  intro t
  rw [seg_getElem?, seg_getElem?]
  have hpt : ∀ s, (if s < i2 - i1 then a[i1 + s]? else none) =
      (if s < j2 - j1 then b[j1 + s]? else none) := by
    intro s
    rw [← seg_getElem?, ← seg_getElem?, hgen]
  by_cases ht : t < q - p
  · rw [if_pos ht, if_pos (by omega)]
    have hs := hpt ((p - i1) + t)
    rw [if_pos (by omega), if_pos (by omega)] at hs
    have e1 : i1 + (p - i1 + t) = p + t := by omega
    have e2 : j1 + (p - i1 + t) = j1 + (p - i1) + t := by omega
    rw [e1, e2] at hs
    exact hs
  · rw [if_neg ht, if_neg (by omega)]

/-! ## find_longest_match soundness -/

theorem matchElem_true {a b : List String} {i j : Nat} (h : matchElem a b i j = true) :
    ∃ x, a[i]? = some x ∧ b[j]? = some x := by
  unfold matchElem at h
  cases ha : a[i]? with
  | none => rw [ha] at h; cases hb : b[j]? <;> rw [hb] at h <;> simp at h
  | some x =>
    cases hb : b[j]? with
    | none => rw [ha, hb] at h; simp at h
    | some y =>
      rw [ha, hb] at h
      simp only [decide_eq_true_eq] at h
      exact ⟨x, rfl, by rw [h]⟩

theorem flmValid_of_matchEnd {a b : List String} {alo ahi blo bhi i j k : Nat}
    (h : MatchEnd a b alo ahi blo bhi i j k) :
    FlmValid a b alo ahi blo bhi ⟨i + 1 - k, j + 1 - k, k⟩ := by
  obtain ⟨h1, h2, h3, h4, h5, h6⟩ := h
  unfold FlmValid
  dsimp only
  refine ⟨by omega, by omega, by omega, by omega, ?_⟩
  have e1 : i + 1 - k + k = i + 1 := by omega
  have e2 : j + 1 - k + k = j + 1 := by omega
  rw [e1, e2]
  exact h6

theorem chainB_sound (b : List String) (x : String) :
    ∀ j ∈ chainB b x, b[j]? = some x := by
  intro j hj
  unfold chainB at hj
  dsimp only at hj
  split at hj
  · simp at hj
  · have := (List.mem_filter.mp hj).2
    simp only [decide_eq_true_eq] at this
    rw [← List.get?_eq_getElem?]
    exact this

theorem procJs_spec (a b : List String) (alo ahi blo bhi : Nat)
    (ha : ahi ≤ a.length) (i : Nat) (hi_lo : alo ≤ i) (hi_hi : i < ahi)
    (j2prev : Nat → Nat)
    (hprev : ∀ j, 0 < j2prev j →
      1 ≤ i ∧ MatchEnd a b alo ahi blo bhi (i - 1) j (j2prev j)) :
    ∀ (js : List Nat), (∀ j ∈ js, b[j]? = some (a.getD i "")) →
      ∀ (acc : Nat → Nat),
        (∀ j, 0 < acc j → MatchEnd a b alo ahi blo bhi i j (acc j)) →
        ∀ (best : FlmBest), FlmValid a b alo ahi blo bhi best →
          (∀ j, 0 < (procJs blo bhi j2prev i js acc best).1 j →
            MatchEnd a b alo ahi blo bhi i j ((procJs blo bhi j2prev i js acc best).1 j)) ∧
          FlmValid a b alo ahi blo bhi (procJs blo bhi j2prev i js acc best).2 := by
  intro js
  induction js with
  | nil => intro _ acc hacc best hbest; exact ⟨hacc, hbest⟩
  | cons j js ih =>
    intro hjs acc hacc best hbest
    have hjmem : b[j]? = some (a.getD i "") := hjs j (List.mem_cons_self j js)
    have hjs' : ∀ j' ∈ js, b[j']? = some (a.getD i "") :=
      fun j' hj' => hjs j' (List.mem_cons_of_mem j hj')
    unfold procJs
    by_cases hblo : j < blo
    · rw [if_pos hblo]
      exact ih hjs' acc hacc best hbest
    · rw [if_neg hblo]
      by_cases hbhi : bhi ≤ j
      · rw [if_pos hbhi]
        exact ⟨hacc, hbest⟩
      · rw [if_neg hbhi]
        dsimp only
        have hjb : j < b.length := by
          by_contra hc
          rw [List.getElem?_eq_none (by omega)] at hjmem
          exact Option.noConfusion hjmem
        have hsingle : seg a i (i + 1) = seg b j (j + 1) := by
          have hia : i < a.length := by omega
          rw [seg_singleton a hia, seg_singleton b hjb]
          have hbj : b[j] = a.getD i "" := by
            have h2 := List.getElem?_eq_getElem hjb
            rw [h2] at hjmem
            exact Option.some_inj.mp hjmem
          rw [hbj, List.getD_eq_getElem a "" hia]
        set k := (if j = 0 then 0 else j2prev (j - 1)) + 1 with hk
        have hme : MatchEnd a b alo ahi blo bhi i j k := by
          rw [hk]
          by_cases hj0 : j = 0
          · rw [if_pos hj0]
            exact ⟨by omega, by omega, hi_hi, by omega, hjb, by
              have e1 : i + 1 - (0 + 1) = i := by omega
              have e2 : j + 1 - (0 + 1) = j := by omega
              rw [e1, e2]; exact hsingle⟩
          · rw [if_neg hj0]
            by_cases hm0 : 0 < j2prev (j - 1)
            · obtain ⟨hi1, hm⟩ := hprev (j - 1) hm0
              obtain ⟨m1, m2, m3, m4, m5, m6⟩ := hm
              refine ⟨by omega, by omega, hi_hi, by omega, hjb, ?_⟩
              have e1 : i + 1 - (j2prev (j - 1) + 1) = i - j2prev (j - 1) := by omega
              have e2 : j + 1 - (j2prev (j - 1) + 1) = j - j2prev (j - 1) := by omega
              rw [e1, e2]
              have p1 : i - 1 + 1 - j2prev (j - 1) = i - j2prev (j - 1) := by omega
              have p2 : i - 1 + 1 = i := by omega
              have p3 : j - 1 + 1 - j2prev (j - 1) = j - j2prev (j - 1) := by omega
              have p4 : j - 1 + 1 = j := by omega
              rw [p1, p2, p3, p4] at m6
              calc seg a (i - j2prev (j - 1)) (i + 1)
                  = seg a (i - j2prev (j - 1)) i ++ seg a i (i + 1) :=
                    (seg_append a (by omega) (by omega)).symm
                _ = seg b (j - j2prev (j - 1)) j ++ seg b j (j + 1) := by rw [m6, hsingle]
                _ = seg b (j - j2prev (j - 1)) (j + 1) := seg_append b (by omega) (by omega)
            · have hz : j2prev (j - 1) = 0 := by omega
              rw [hz]
              exact ⟨by omega, by omega, hi_hi, by omega, hjb, by
                have e1 : i + 1 - (0 + 1) = i := by omega
                have e2 : j + 1 - (0 + 1) = j := by omega
                rw [e1, e2]; exact hsingle⟩
        apply ih hjs'
        · intro j' hj'
          by_cases hjj : j' = j
          · subst hjj
            rw [if_pos rfl] at hj' ⊢
            exact hme
          · rw [if_neg hjj] at hj' ⊢
            exact hacc j' hj'
        · split
          · exact flmValid_of_matchEnd hme
          · exact hbest

theorem dpRows_spec (a b : List String) (b2j : String → List Nat)
    (alo ahi blo bhi : Nat) (ha : ahi ≤ a.length)
    (hb2j : ∀ x j, j ∈ b2j x → b[j]? = some x) :
    ∀ (cnt i : Nat), alo ≤ i → i + cnt ≤ ahi →
      ∀ (j2 : Nat → Nat),
        (∀ j, 0 < j2 j → 1 ≤ i ∧ MatchEnd a b alo ahi blo bhi (i - 1) j (j2 j)) →
        ∀ (best : FlmBest), FlmValid a b alo ahi blo bhi best →
          FlmValid a b alo ahi blo bhi (dpRows a b b2j blo bhi i cnt j2 best) := by
  intro cnt
  induction cnt with
  | zero => intro i _ _ j2 _ best hbest; exact hbest
  | succ n ih =>
    intro i hlo hhi j2 hj2 best hbest
    unfold dpRows
    have hrow := procJs_spec a b alo ahi blo bhi ha i hlo (by omega) j2 hj2
      (b2j (a.getD i "")) (fun j hj => hb2j (a.getD i "") j hj)
      (fun _ => 0) (fun j hj => absurd hj (by simp)) best hbest
    exact ih (i + 1) (by omega) (by omega) _
      (fun j hj => ⟨by omega, by
        have := hrow.1 j hj
        have e : i + 1 - 1 = i := by omega
        rw [e]
        exact this⟩) _ hrow.2

theorem extendLo_valid (a b : List String) (alo blo : Nat) :
    ∀ (besti bestj bestsize ahi bhi : Nat),
      FlmValid a b alo ahi blo bhi ⟨besti, bestj, bestsize⟩ →
      FlmValid a b alo ahi blo bhi (extendLo a b alo blo besti bestj bestsize) := by
  intro besti
  induction besti with
  | zero => intro bestj bestsize ahi bhi h; exact h
  | succ bi ih =>
    intro bestj bestsize ahi bhi h
    unfold extendLo
    split
    · rename_i hcond
      obtain ⟨hc1, hc2, hc3⟩ := hcond
      obtain ⟨x, hx1, hx2⟩ := matchElem_true hc3
      apply ih
      unfold FlmValid at h ⊢
      dsimp only at h ⊢
      obtain ⟨v1, v2, v3, v4, v5⟩ := h
      have hia : bi < a.length := by
        by_contra hc
        rw [List.getElem?_eq_none (by omega)] at hx1
        exact Option.noConfusion hx1
      have hjb : bestj - 1 < b.length := by
        by_contra hc
        rw [List.getElem?_eq_none (by omega)] at hx2
        exact Option.noConfusion hx2
      refine ⟨by omega, by omega, by omega, by omega, ?_⟩
      have e1 : bi + (bestsize + 1) = (bi + 1) + bestsize := by omega
      have e2 : bestj - 1 + (bestsize + 1) = bestj + bestsize := by omega
      rw [e1, e2]
      have ea : seg a bi ((bi + 1) + bestsize) = a[bi] :: seg a (bi + 1) ((bi + 1) + bestsize) :=
        seg_cons a (by omega) hia
      have eb : seg b (bestj - 1) (bestj + bestsize) =
          b[bestj - 1] :: seg b (bestj - 1 + 1) (bestj + bestsize) :=
        seg_cons b (by omega) hjb
      rw [ea, eb]
      have exy : a[bi] = b[bestj - 1] := by
        rw [List.getElem?_eq_getElem hia] at hx1
        rw [List.getElem?_eq_getElem hjb] at hx2
        rw [Option.some_inj.mp hx1, Option.some_inj.mp hx2]
      rw [exy]
      congr 1
      have e3 : bestj - 1 + 1 = bestj := by omega
      rw [e3]
      exact v5
    · exact h

theorem extendHiF_valid (a b : List String) (ahi bhi besti bestj : Nat)
    (alo blo : Nat) :
    ∀ (gas bestsize : Nat),
      FlmValid a b alo ahi blo bhi ⟨besti, bestj, bestsize⟩ →
      FlmValid a b alo ahi blo bhi
        ⟨besti, bestj, extendHiF a b ahi bhi besti bestj gas bestsize⟩ := by
  intro gas
  induction gas with
  | zero => intro bestsize h; exact h
  | succ g ih =>
    intro bestsize h
    unfold extendHiF
    split
    · rename_i hcond
      obtain ⟨hc1, hc2, hc3⟩ := hcond
      obtain ⟨x, hx1, hx2⟩ := matchElem_true hc3
      apply ih
      unfold FlmValid at h ⊢
      dsimp only at h ⊢
      obtain ⟨v1, v2, v3, v4, v5⟩ := h
      have hia : besti + bestsize < a.length := by
        by_contra hc
        rw [List.getElem?_eq_none (by omega)] at hx1
        exact Option.noConfusion hx1
      have hjb : bestj + bestsize < b.length := by
        by_contra hc
        rw [List.getElem?_eq_none (by omega)] at hx2
        exact Option.noConfusion hx2
      refine ⟨by omega, by omega, by omega, by omega, ?_⟩
      have exy : a[besti + bestsize] = b[bestj + bestsize] := by
        rw [List.getElem?_eq_getElem hia] at hx1
        rw [List.getElem?_eq_getElem hjb] at hx2
        rw [Option.some_inj.mp hx1, Option.some_inj.mp hx2]
      calc seg a besti (besti + (bestsize + 1))
          = seg a besti (besti + bestsize) ++ seg a (besti + bestsize) (besti + (bestsize + 1)) :=
            (seg_append a (by omega) (by omega)).symm
        _ = seg b bestj (bestj + bestsize) ++ seg b (bestj + bestsize) (bestj + (bestsize + 1)) := by
            rw [v5]
            congr 1
            have ha1 : besti + (bestsize + 1) = (besti + bestsize) + 1 := by omega
            have hb1 : bestj + (bestsize + 1) = (bestj + bestsize) + 1 := by omega
            rw [ha1, hb1, seg_singleton a hia, seg_singleton b hjb, exy]
        _ = seg b bestj (bestj + (bestsize + 1)) := seg_append b (by omega) (by omega)
    · exact h

theorem flm_valid (a b : List String) (b2j : String → List Nat)
    (alo ahi blo bhi : Nat) (halo : alo ≤ ahi) (hblo : blo ≤ bhi)
    (ha : ahi ≤ a.length) (hb : bhi ≤ b.length)
    (hb2j : ∀ x j, j ∈ b2j x → b[j]? = some x) :
    FlmValid a b alo ahi blo bhi (find_longest_match a b b2j alo ahi blo bhi) := by
  unfold find_longest_match
  have h0 : FlmValid a b alo ahi blo bhi ⟨alo, blo, 0⟩ := by
    unfold FlmValid
    dsimp only
    exact ⟨le_refl alo, le_refl blo, by omega, by omega, by
      rw [Nat.add_zero, Nat.add_zero, seg_self, seg_self]⟩
  have hdp := dpRows_spec a b b2j alo ahi blo bhi ha hb2j (ahi - alo) alo (le_refl alo)
    (by omega) (fun _ => 0) (fun j hj => absurd hj (by simp)) ⟨alo, blo, 0⟩ h0
  have hlo := extendLo_valid a b alo blo _ _ _ ahi bhi hdp
  exact extendHiF_valid a b ahi bhi _ _ alo blo ahi _ hlo

/-! ## Matching-blocks soundness -/

theorem blocksIn_mono_lo (a b : List String) {loI hiI loJ hiJ loI' loJ' : Nat}
    {bs : List Block} (h : BlocksIn a b loI hiI loJ hiJ bs)
    (h1 : loI' ≤ loI) (h2 : loJ' ≤ loJ) : BlocksIn a b loI' hiI loJ' hiJ bs := by
  cases bs with
  | nil => trivial
  | cons blk rest =>
    obtain ⟨x, y, k⟩ := blk
    obtain ⟨c1, c2, c3, c4, c5, c6⟩ := h
    exact ⟨by omega, c2, by omega, c4, c5, c6⟩

theorem blocksIn_mono_hi (a b : List String) {loI hiI loJ hiJ hiI' hiJ' : Nat}
    {bs : List Block} (h : BlocksIn a b loI hiI loJ hiJ bs)
    (h1 : hiI ≤ hiI') (h2 : hiJ ≤ hiJ') : BlocksIn a b loI hiI' loJ hiJ' bs := by
  induction bs generalizing loI loJ with
  | nil => trivial
  | cons blk rest ih =>
    obtain ⟨x, y, k⟩ := blk
    obtain ⟨c1, c2, c3, c4, c5, c6⟩ := h
    exact ⟨c1, by omega, c3, by omega, c5, ih c6⟩

theorem blocksIn_append (a b : List String) {loI midI hiI loJ midJ hiJ : Nat}
    {bs1 bs2 : List Block} (h1 : BlocksIn a b loI midI loJ midJ bs1)
    (h2 : BlocksIn a b midI hiI midJ hiJ bs2)
    (hm1 : loI ≤ midI) (hm2 : loJ ≤ midJ) (hh1 : midI ≤ hiI) (hh2 : midJ ≤ hiJ) :
    BlocksIn a b loI hiI loJ hiJ (bs1 ++ bs2) := by
  induction bs1 generalizing loI loJ with
  | nil => exact blocksIn_mono_lo a b h2 hm1 hm2
  | cons blk rest ih =>
    obtain ⟨x, y, k⟩ := blk
    obtain ⟨c1, c2, c3, c4, c5, c6⟩ := h1
    exact ⟨c1, by omega, c3, by omega, c5, ih c6 (by omega) (by omega)⟩

theorem matchingBlocksGo_sound (a b : List String) (b2j : String → List Nat)
    (hb2j : ∀ x j, j ∈ b2j x → b[j]? = some x) :
    ∀ (fuel alo ahi blo bhi : Nat), alo ≤ ahi → blo ≤ bhi →
      ahi ≤ a.length → bhi ≤ b.length →
      BlocksIn a b alo ahi blo bhi (matchingBlocksGo a b b2j fuel alo ahi blo bhi) := by
  intro fuel
  induction fuel with
  | zero => intro alo ahi blo bhi _ _ _ _; trivial
  | succ f ih =>
    intro alo ahi blo bhi halo hblo ha hb
    unfold matchingBlocksGo
    have hv := flm_valid a b b2j alo ahi blo bhi halo hblo ha hb hb2j
    set m := find_longest_match a b b2j alo ahi blo bhi with hm
    obtain ⟨v1, v2, v3, v4, v5⟩ := hv
    by_cases hz : m.bestsize = 0
    · rw [if_pos hz]; trivial
    · rw [if_neg hz]
      have hmidright : BlocksIn a b m.besti ahi m.bestj bhi
          ((m.besti, m.bestj, m.bestsize) ::
            (if m.besti + m.bestsize < ahi ∧ m.bestj + m.bestsize < bhi then
              matchingBlocksGo a b b2j f (m.besti + m.bestsize) ahi (m.bestj + m.bestsize) bhi
            else [])) := by
        refine ⟨le_refl _, v3, le_refl _, v4, v5, ?_⟩
        split
        · rename_i hcond
          exact ih (m.besti + m.bestsize) ahi (m.bestj + m.bestsize) bhi
            (by omega) (by omega) ha hb
        · trivial
      split
      · rename_i hcond
        rw [List.append_assoc]
        exact blocksIn_append a b
          (ih alo m.besti blo m.bestj (by omega) (by omega) (by omega) (by omega))
          hmidright (by omega) (by omega) (by omega) (by omega)
      · rename_i hcond
        have := @blocksIn_mono_lo a b _ _ _ _ alo blo _ hmidright v1 v2
        simpa using this

theorem mergeAdj_sound (a b : List String) :
    ∀ (bs : List Block) (i1 j1 k1 : Nat),
      i1 + k1 ≤ a.length → j1 + k1 ≤ b.length →
      seg a i1 (i1 + k1) = seg b j1 (j1 + k1) →
      BlocksIn a b (i1 + k1) a.length (j1 + k1) b.length bs →
      BlocksIn a b i1 a.length j1 b.length (mergeAdj (i1, j1, k1) bs) := by
  intro bs
  induction bs with
  | nil =>
    intro i1 j1 k1 h1 h2 h3 _
    unfold mergeAdj
    split
    · exact ⟨le_refl _, h1, le_refl _, h2, h3, trivial⟩
    · trivial
  | cons blk rest ih =>
    intro i1 j1 k1 h1 h2 h3 hbs
    obtain ⟨i2, j2, k2⟩ := blk
    obtain ⟨c1, c2, c3, c4, c5, c6⟩ := hbs
    unfold mergeAdj
    split
    · rename_i hadj
      obtain ⟨ha1, ha2⟩ := hadj
      apply ih i1 j1 (k1 + k2)
      · omega
      · omega
      · have e1 : i1 + (k1 + k2) = i2 + k2 := by omega
        have e2 : j1 + (k1 + k2) = j2 + k2 := by omega
        rw [e1, e2]
        calc seg a i1 (i2 + k2)
            = seg a i1 (i1 + k1) ++ seg a (i1 + k1) (i2 + k2) :=
              (seg_append a (by omega) (by omega)).symm
          _ = seg b j1 (j1 + k1) ++ seg b (j1 + k1) (j2 + k2) := by
              rw [h3]
              congr 1
              rw [ha1, ha2]
              exact c5
          _ = seg b j1 (j2 + k2) := seg_append b (by omega) (by omega)
      · have e1 : i1 + (k1 + k2) = i2 + k2 := by omega
        have e2 : j1 + (k1 + k2) = j2 + k2 := by omega
        rw [e1, e2]
        exact c6
    · have htail : BlocksIn a b i2 a.length j2 b.length (mergeAdj (i2, j2, k2) rest) :=
        ih i2 j2 k2 c2 c4 c5 c6
      split
      · rename_i hk1
        exact ⟨le_refl _, h1, le_refl _, h2, h3,
          blocksIn_mono_lo a b htail (by omega) (by omega)⟩
      · rename_i hk1
        have hk1z : k1 = 0 := by omega
        subst hk1z
        simp only [List.nil_append]
        exact blocksIn_mono_lo a b htail (by omega) (by omega)

theorem get_matching_blocks_sound (a b : List String) :
    BlocksIn a b 0 a.length 0 b.length (get_matching_blocks a b) := by
  unfold get_matching_blocks
  have hmain := matchingBlocksGo_sound a b (chainB b) (fun x j hj => chainB_sound b x j hj)
    (a.length + b.length + 1) 0 a.length 0 b.length (by omega) (by omega)
    (le_refl _) (le_refl _)
  have hmerged := mergeAdj_sound a b _ 0 0 0 (by omega) (by omega)
    (by rw [seg_self, seg_self]) (by simpa using hmain)
  apply blocksIn_append a b hmerged
  · exact ⟨le_refl _, by omega, le_refl _, by omega,
      by rw [Nat.add_zero, Nat.add_zero, seg_self, seg_self], trivial⟩
  · omega
  · omega
  · omega
  · omega

/-! ## Opcode soundness -/

theorem endOf_append_sentinel (la lb : Nat) :
    ∀ (bs : List Block) (i j : Nat), endOf i j (bs ++ [(la, lb, 0)]) = (la, lb) := by
  intro bs
  induction bs with
  | nil => intro i j; rfl
  | cons blk rest ih =>
    intro i j
    obtain ⟨x, y, k⟩ := blk
    exact ih (x + k) (y + k)

theorem OpsSpec_cons (a b : List String) (t : Tag) (i1 i2 j1 j2 iE jE : Nat)
    (rest : List Opcode) (h12 : i1 ≤ i2) (h34 : j1 ≤ j2) (hA : i2 ≤ a.length)
    (hB : j2 ≤ b.length) (htag : TagOK a b ⟨t, i1, i2, j1, j2⟩)
    (hrest : OpsSpec a b i2 j2 rest iE jE) :
    OpsSpec a b i1 j1 (⟨t, i1, i2, j1, j2⟩ :: rest) iE jE :=
  ⟨rfl, rfl, h12, h34, hA, hB, htag, hrest⟩

theorem opcodesGo_spec (a b : List String) :
    ∀ (blocks : List Block) (i j : Nat), i ≤ a.length → j ≤ b.length →
      BlocksIn a b i a.length j b.length blocks →
      OpsSpec a b i j (opcodesGo i j blocks)
        (endOf i j blocks).1 (endOf i j blocks).2 := by
  intro blocks
  induction blocks with
  | nil => intro i j hi hj _; exact ⟨rfl, rfl, hi, hj⟩
  | cons blk rest ih =>
    intro i j hi hj hbs
    obtain ⟨ai, bj, size⟩ := blk
    obtain ⟨c1, c2, c3, c4, c5, c6⟩ := hbs
    have hrec := ih (ai + size) (bj + size) (by omega) (by omega) c6
    show OpsSpec a b i j
      ((if i < ai ∧ j < bj then [⟨.replace, i, ai, j, bj⟩]
        else if i < ai then [⟨.delete, i, ai, j, bj⟩]
        else if j < bj then [⟨.insert, i, ai, j, bj⟩]
        else []) ++
        (if size ≠ 0 then [⟨.equal, ai, ai + size, bj, bj + size⟩] else []) ++
        opcodesGo (ai + size) (bj + size) rest)
      (endOf (ai + size) (bj + size) rest).1 (endOf (ai + size) (bj + size) rest).2
    rw [List.append_assoc]
    have heqs : OpsSpec a b ai bj
        ((if size ≠ 0 then [⟨.equal, ai, ai + size, bj, bj + size⟩] else []) ++
          opcodesGo (ai + size) (bj + size) rest)
        (endOf (ai + size) (bj + size) rest).1 (endOf (ai + size) (bj + size) rest).2 := by
      split
      · exact OpsSpec_cons a b .equal ai (ai + size) bj (bj + size) _ _ _
          (by omega) (by omega) (by omega) (by omega)
          ⟨c5, show ai + size - ai = bj + size - bj by omega⟩ hrec
      · rename_i hsz
        have hsz0 : size = 0 := by omega
        subst hsz0
        simpa using hrec
    by_cases h1 : i < ai ∧ j < bj
    · rw [if_pos h1]
      exact OpsSpec_cons a b .replace i ai j bj _ _ _
        (by omega) (by omega) (by omega) (by omega) trivial heqs
    · rw [if_neg h1]
      by_cases h2 : i < ai
      · rw [if_pos h2]
        exact OpsSpec_cons a b .delete i ai j bj _ _ _
          (by omega) (by omega) (by omega) (by omega) (show j = bj by omega) heqs
      · rw [if_neg h2]
        by_cases h3 : j < bj
        · rw [if_pos h3]
          exact OpsSpec_cons a b .insert i ai j bj _ _ _
            (by omega) (by omega) (by omega) (by omega) (show i = ai by omega) heqs
        · rw [if_neg h3]
          have hiai : i = ai := by omega
          have hjbj : j = bj := by omega
          subst hiai
          subst hjbj
          simpa using heqs

theorem get_opcodes_spec (a b : List String) :
    OpsSpec a b 0 0 (get_opcodes a b) a.length b.length := by
  unfold get_opcodes
  have h := opcodesGo_spec a b (get_matching_blocks a b) 0 0 (by omega) (by omega)
    (get_matching_blocks_sound a b)
  have hend : endOf 0 0 (get_matching_blocks a b) = (a.length, b.length) := by
    unfold get_matching_blocks
    exact endOf_append_sentinel a.length b.length _ 0 0
  rw [hend] at h
  exact h

/-! ## Grouped-opcode soundness -/

theorem TagOK_equal (a b : List String) (i1 i2 j1 j2 : Nat)
    (hseg : seg a i1 i2 = seg b j1 j2) (hlen : i2 - i1 = j2 - j1) :
    TagOK a b ⟨.equal, i1, i2, j1, j2⟩ := ⟨hseg, hlen⟩

theorem OpsSpec_append (a b : List String) :
    ∀ (xs : List Opcode) (i j m n p q : Nat) (ys : List Opcode),
      OpsSpec a b i j xs m n → OpsSpec a b m n ys p q →
      OpsSpec a b i j (xs ++ ys) p q := by
  intro xs
  induction xs with
  | nil =>
    intro i j m n p q ys h1 h2
    obtain ⟨rfl, rfl, _, _⟩ := h1
    exact h2
  | cons c rest ih =>
    intro i j m n p q ys h1 h2
    obtain ⟨e1, e2, h12, h34, hA, hB, htag, hrest⟩ := h1
    exact ⟨e1, e2, h12, h34, hA, hB, htag, ih _ _ _ _ _ _ _ hrest h2⟩

theorem OpsSpec_le (a b : List String) :
    ∀ (xs : List Opcode) (i j m n : Nat), OpsSpec a b i j xs m n →
      i ≤ m ∧ j ≤ n ∧ m ≤ a.length ∧ n ≤ b.length := by
  intro xs
  induction xs with
  | nil =>
    intro i j m n h
    obtain ⟨rfl, rfl, hA, hB⟩ := h
    exact ⟨le_refl _, le_refl _, hA, hB⟩
  | cons c rest ih =>
    intro i j m n h
    obtain ⟨e1, e2, h12, h34, hA, hB, htag, hrest⟩ := h
    obtain ⟨q1, q2, q3, q4⟩ := ih _ _ _ _ hrest
    exact ⟨by omega, by omega, q3, q4⟩

theorem trimHead_spec (a b : List String) (n : Nat) (codes : List Opcode)
    (h : OpsSpec a b 0 0 codes a.length b.length) (hne : codes ≠ []) :
    ∃ s s', OpsSpec a b s s' (trimHead n codes) a.length b.length ∧ s = s' ∧
      seg a 0 s = seg b 0 s' ∧ s ≤ a.length ∧ s' ≤ b.length := by
  cases codes with
  | nil => exact absurd rfl hne
  | cons c rest =>
    obtain ⟨e1, e2, h12, h34, hA, hB, htag, hrest⟩ := h
    unfold trimHead
    dsimp only
    by_cases hct : c.tag = Tag.equal
    · rw [if_pos hct]
      unfold TagOK at htag
      rw [hct] at htag
      dsimp only at htag
      obtain ⟨hseg, hlen⟩ := htag
      rw [e1] at h12 hseg hlen ⊢
      rw [e2] at h34 hseg hlen ⊢
      simp only [Nat.zero_max]
      refine ⟨c.i2 - n, c.j2 - n, ?_, by omega, ?_, by omega, by omega⟩
      · refine ⟨rfl, rfl, ?_, ?_, hA, hB, ?_, hrest⟩
        · show c.i2 - n ≤ c.i2
          omega
        · show c.j2 - n ≤ c.j2
          omega
        · show TagOK a b ⟨c.tag, c.i2 - n, c.i2, c.j2 - n, c.j2⟩
          rw [hct]
          refine TagOK_equal a b _ _ _ _ ?_ (by omega)
          have hx := seg_sub a b hseg hlen (Nat.zero_le _)
            (show c.i2 - n ≤ c.i2 by omega) (le_refl _)
          have u1 : 0 + (c.i2 - n - 0) = c.j2 - n := by omega
          have u2 : 0 + (c.i2 - 0) = c.j2 := by omega
          rw [u1, u2] at hx
          exact hx
      · have hx := seg_sub a b hseg hlen (le_refl 0)
          (Nat.zero_le _) (show c.i2 - n ≤ c.i2 by omega)
        have u1 : 0 + (0 - 0) = 0 := by omega
        have u2 : 0 + (c.i2 - n - 0) = c.j2 - n := by omega
        rw [u1, u2] at hx
        exact hx
    · rw [if_neg hct]
      refine ⟨0, 0, ⟨e1, e2, h12, h34, hA, hB, htag, hrest⟩, rfl, ?_, Nat.zero_le _, Nat.zero_le _⟩
      rw [seg_self, seg_self]

theorem trimLastAux_spec (a b : List String) (n : Nat) :
    ∀ (codes : List Opcode) (i j iE jE : Nat),
      OpsSpec a b i j codes iE jE →
      ∃ e e', OpsSpec a b i j (trimLastAux n codes) e e' ∧
        e ≤ iE ∧ e' ≤ jE ∧ iE - e = jE - e' ∧ seg a e iE = seg b e' jE := by
  intro codes
  induction codes with
  | nil =>
    intro i j iE jE h
    obtain ⟨rfl, rfl, hA, hB⟩ := h
    exact ⟨i, j, ⟨rfl, rfl, hA, hB⟩, le_refl _, le_refl _, by omega, by rw [seg_self, seg_self]⟩
  | cons c rest ih =>
    intro i j iE jE h
    obtain ⟨e1, e2, h12, h34, hA, hB, htag, hrest⟩ := h
    cases rest with
    | nil =>
      obtain ⟨q1, q2, qA, qB⟩ := hrest
      by_cases hct : c.tag = Tag.equal
      · unfold trimLastAux
        rw [if_pos hct]
        unfold TagOK at htag
        rw [hct] at htag
        dsimp only at htag
        obtain ⟨hseg, hlen⟩ := htag
        refine ⟨min c.i2 (c.i1 + n), min c.j2 (c.j1 + n), ?_, by omega, by omega, by omega, ?_⟩
        · refine ⟨e1, e2, ?_, ?_, ?_, ?_, ?_, ?_⟩
          · show c.i1 ≤ min c.i2 (c.i1 + n)
            omega
          · show c.j1 ≤ min c.j2 (c.j1 + n)
            omega
          · show min c.i2 (c.i1 + n) ≤ a.length
            omega
          · show min c.j2 (c.j1 + n) ≤ b.length
            omega
          · show TagOK a b ⟨c.tag, c.i1, min c.i2 (c.i1 + n), c.j1, min c.j2 (c.j1 + n)⟩
            rw [hct]
            refine TagOK_equal a b _ _ _ _ ?_ (by omega)
            have hx := seg_sub a b hseg hlen (le_refl _)
              (show c.i1 ≤ min c.i2 (c.i1 + n) by omega)
              (show min c.i2 (c.i1 + n) ≤ c.i2 by omega)
            have u1 : c.j1 + (c.i1 - c.i1) = c.j1 := by omega
            have u2 : c.j1 + (min c.i2 (c.i1 + n) - c.i1) = min c.j2 (c.j1 + n) := by omega
            rw [u1, u2] at hx
            exact hx
          · exact ⟨rfl, rfl, show min c.i2 (c.i1 + n) ≤ a.length by omega,
              show min c.j2 (c.j1 + n) ≤ b.length by omega⟩
        · rw [← q1, ← q2]
          have hx := seg_sub a b hseg hlen
            (show c.i1 ≤ min c.i2 (c.i1 + n) by omega)
            (show min c.i2 (c.i1 + n) ≤ c.i2 by omega) (le_refl _)
          have u1 : c.j1 + (min c.i2 (c.i1 + n) - c.i1) = min c.j2 (c.j1 + n) := by omega
          have u2 : c.j1 + (c.i2 - c.i1) = c.j2 := by omega
          rw [u1, u2] at hx
          exact hx
      · unfold trimLastAux
        rw [if_neg hct]
        exact ⟨iE, jE, ⟨e1, e2, h12, h34, hA, hB, htag, q1, q2, qA, qB⟩,
          le_refl _, le_refl _, by omega, by rw [seg_self, seg_self]⟩
    | cons d rest' =>
      obtain ⟨E, E', hOps, hle1, hle2, hglen, hgseg⟩ := ih c.i2 c.j2 iE jE hrest
      refine ⟨E, E', ?_, hle1, hle2, hglen, hgseg⟩
      show OpsSpec a b i j (c :: trimLastAux n (d :: rest')) E E'
      exact ⟨e1, e2, h12, h34, hA, hB, htag, hOps⟩

theorem groupSplit_spec (a b : List String) (iE jE : Nat)
    (hEa : iE ≤ a.length) (hEb : jE ≤ b.length)
    (hglen : a.length - iE = b.length - jE)
    (hgseg : seg a iE a.length = seg b jE b.length) :
    ∀ (codes group : List Opcode) (pa pb ga gb ci cj : Nat),
      OpsSpec a b ga gb group ci cj →
      OpsSpec a b ci cj codes iE jE →
      pa ≤ ga → pb ≤ gb → ga - pa = gb - pb →
      seg a pa ga = seg b pb gb →
      (group = [] → ga = ci ∧ gb = cj) →
      (group ≠ [] → (group.headD default).i1 = ga) →
      GSpec a b pa pb (groupSplit 3 group codes) := by
  intro codes
  induction codes with
  | nil =>
    intro group pa pb ga gb ci cj hg hc hpa hpb hd hseg hemp hhead
    obtain ⟨rfl, rfl, hciA, hcjB⟩ := hc
    cases group with
    | nil =>
      show GSpec a b pa pb []
      obtain ⟨hga, hgb⟩ := hemp rfl
      subst hga hgb
      refine ⟨by omega, by omega, by omega, ?_⟩
      rw [← seg_append a hpa hEa, ← seg_append b hpb hEb, hseg, hgseg]
    | cons g0 grest =>
      have hh : g0.i1 = ga := by simpa using hhead (by simp)
      cases grest with
      | nil =>
        obtain ⟨e1, e2, h12, h34, hA, hB, htag, hrest2⟩ := hg
        obtain ⟨q1, q2, qA, qB⟩ := hrest2
        by_cases hct : g0.tag = Tag.equal
        · show GSpec a b pa pb (if g0.tag = Tag.equal then [] else [[g0]])
          rw [if_pos hct]
          unfold TagOK at htag
          rw [hct] at htag
          dsimp only at htag
          obtain ⟨hs2, hl2⟩ := htag
          rw [e1, q1] at hs2 hl2 h12
          rw [e2, q2] at hs2 hl2 h34
          refine ⟨by omega, by omega, by omega, ?_⟩
          rw [← seg_append a (show pa ≤ ga by omega) (show ga ≤ a.length by omega),
            ← seg_append a (show ga ≤ ci by omega) hEa,
            ← seg_append b (show pb ≤ gb by omega) (show gb ≤ b.length by omega),
            ← seg_append b (show gb ≤ cj by omega) hEb, hseg, hs2, hgseg]
        · show GSpec a b pa pb (if g0.tag = Tag.equal then [] else [[g0]])
          rw [if_neg hct]
          refine ⟨ga, gb, ci, cj, by simp, hpa, hpb, hd, hseg, by simpa using hh,
            ⟨e1, e2, h12, h34, hA, hB, htag, q1, q2, qA, qB⟩, hEa, hEb, hglen, hgseg⟩
      | cons g1 grest' =>
        show GSpec a b pa pb [g0 :: g1 :: grest']
        refine ⟨ga, gb, ci, cj, by simp, hpa, hpb, hd, hseg, ?_, hg, hEa, hEb, hglen, hgseg⟩
        simpa using hh
  | cons c cs ih =>
    intro group pa pb ga gb ci cj hg hc hpa hpb hd hseg hemp hhead
    obtain ⟨e1, e2, h12, h34, hA, hB, htag, hcrest⟩ := hc
    show GSpec a b pa pb (groupSplit 3 group (c :: cs))
    unfold groupSplit
    by_cases hsp : c.tag = Tag.equal ∧ 2 * 3 < c.i2 - c.i1
    · rw [if_pos hsp]
      obtain ⟨hct, hwide⟩ := hsp
      unfold TagOK at htag
      rw [hct] at htag
      dsimp only at htag
      obtain ⟨hcs, hcl⟩ := htag
      have hmin1 : min c.i2 (c.i1 + 3) = c.i1 + 3 := min_eq_right (by omega)
      have hmin2 : min c.j2 (c.j1 + 3) = c.j1 + 3 := min_eq_right (by omega)
      have hmax1 : max c.i1 (c.i2 - 3) = c.i2 - 3 := max_eq_right (by omega)
      have hmax2 : max c.j1 (c.j2 - 3) = c.j2 - 3 := max_eq_right (by omega)
      rw [hmin1, hmin2, hmax1, hmax2]
      refine ⟨ga, gb, c.i1 + 3, c.j1 + 3, by simp, hpa, hpb, hd, hseg, ?_, ?_, ?_⟩
      · cases group with
        | nil =>
          obtain ⟨hga, hgb⟩ := hemp rfl
          simp only [List.nil_append, List.headD_cons]
          show c.i1 = ga
          omega
        | cons q qrest =>
          have hq := hhead (by simp)
          simp only [List.headD_cons] at hq
          simpa using hq
      · refine OpsSpec_append a b group ga gb ci cj _ _ _ hg ?_
        refine ⟨e1, e2, ?_, ?_, ?_, ?_, ?_, ?_⟩
        · show c.i1 ≤ c.i1 + 3
          omega
        · show c.j1 ≤ c.j1 + 3
          omega
        · show c.i1 + 3 ≤ a.length
          omega
        · show c.j1 + 3 ≤ b.length
          omega
        · show TagOK a b ⟨c.tag, c.i1, c.i1 + 3, c.j1, c.j1 + 3⟩
          rw [hct]
          refine TagOK_equal a b _ _ _ _ ?_ (by omega)
          have hx := seg_sub a b hcs hcl (le_refl _)
            (show c.i1 ≤ c.i1 + 3 by omega) (show c.i1 + 3 ≤ c.i2 by omega)
          have u1 : c.j1 + (c.i1 - c.i1) = c.j1 := by omega
          have u2 : c.j1 + (c.i1 + 3 - c.i1) = c.j1 + 3 := by omega
          rw [u1, u2] at hx
          exact hx
        · exact ⟨rfl, rfl, show c.i1 + 3 ≤ a.length by omega, show c.j1 + 3 ≤ b.length by omega⟩
      · refine ih _ (c.i1 + 3) (c.j1 + 3) (c.i2 - 3) (c.j2 - 3) c.i2 c.j2 ?_ hcrest ?_ ?_ ?_ ?_ ?_ ?_
        · refine ⟨rfl, rfl, ?_, ?_, hA, hB, ?_, rfl, rfl, hA, hB⟩
          · show c.i2 - 3 ≤ c.i2
            omega
          · show c.j2 - 3 ≤ c.j2
            omega
          · show TagOK a b ⟨c.tag, c.i2 - 3, c.i2, c.j2 - 3, c.j2⟩
            rw [hct]
            refine TagOK_equal a b _ _ _ _ ?_ (by omega)
            have hx := seg_sub a b hcs hcl (show c.i1 ≤ c.i2 - 3 by omega)
              (show c.i2 - 3 ≤ c.i2 by omega) (le_refl _)
            have u1 : c.j1 + (c.i2 - 3 - c.i1) = c.j2 - 3 := by omega
            have u2 : c.j1 + (c.i2 - c.i1) = c.j2 := by omega
            rw [u1, u2] at hx
            exact hx
        · show c.i1 + 3 ≤ c.i2 - 3
          omega
        · show c.j1 + 3 ≤ c.j2 - 3
          omega
        · show c.i2 - 3 - (c.i1 + 3) = c.j2 - 3 - (c.j1 + 3)
          omega
        · have hx := seg_sub a b hcs hcl (show c.i1 ≤ c.i1 + 3 by omega)
            (show c.i1 + 3 ≤ c.i2 - 3 by omega) (show c.i2 - 3 ≤ c.i2 by omega)
          have u1 : c.j1 + (c.i1 + 3 - c.i1) = c.j1 + 3 := by omega
          have u2 : c.j1 + (c.i2 - 3 - c.i1) = c.j2 - 3 := by omega
          rw [u1, u2] at hx
          exact hx
        · intro hcon
          simp at hcon
        · intro _
          simp only [List.headD_cons]
    · rw [if_neg hsp]
      refine ih (group ++ [c]) pa pb ga gb c.i2 c.j2 ?_ hcrest hpa hpb hd hseg ?_ ?_
      · exact OpsSpec_append a b group ga gb ci cj _ _ _ hg
          ⟨e1, e2, h12, h34, hA, hB, htag, rfl, rfl, hA, hB⟩
      · intro hcon
        simp at hcon
      · intro _
        cases group with
        | nil =>
          obtain ⟨hga, hgb⟩ := hemp rfl
          simp only [List.nil_append, List.headD_cons]
          omega
        | cons q qrest =>
          have hq := hhead (by simp)
          simp only [List.headD_cons] at hq
          simpa using hq

theorem grouped_spec (a b : List String) :
    GSpec a b 0 0 (get_grouped_opcodes a b 3) := by
  have hcodes := get_opcodes_spec a b
  unfold get_grouped_opcodes
  dsimp only
  by_cases hnil : get_opcodes a b = []
  · rw [hnil] at hcodes
    obtain ⟨hla, hlb, _, _⟩ := hcodes
    rw [hnil]
    rw [if_pos rfl]
    have hred : groupSplit 3 []
        (trimLastAux 3 (trimHead 3 [(⟨Tag.equal, 0, 1, 0, 1⟩ : Opcode)])) = [] := rfl
    rw [hred]
    refine ⟨Nat.zero_le _, Nat.zero_le _, by omega, ?_⟩
    rw [← hla, ← hlb, seg_self, seg_self]
  · rw [if_neg hnil]
    obtain ⟨s, s', hH, hss, hseg0, hsA, hsB⟩ :=
      trimHead_spec a b 3 (get_opcodes a b) hcodes hnil
    obtain ⟨e, e', hL, heA, heB, hgl, hgs⟩ :=
      trimLastAux_spec a b 3 (trimHead 3 (get_opcodes a b)) s s' a.length b.length hH
    exact groupSplit_spec a b e e' heA heB hgl hgs _ [] 0 0 s s' s s'
      ⟨rfl, rfl, hsA, hsB⟩ hL (Nat.zero_le _) (Nat.zero_le _) (by omega) hseg0
      (fun _ => ⟨rfl, rfl⟩) (fun hcon => absurd rfl hcon)

/-! ## Structural round trip -/

theorem applyBody_append (a : List String) :
    ∀ (xs : List DLine) (pos p1 p2 : Nat) (o1 o2 : List String) (ys : List DLine),
      applyBody a pos xs = some (p1, o1) → applyBody a p1 ys = some (p2, o2) →
      applyBody a pos (xs ++ ys) = some (p2, o1 ++ o2) := by
  intro xs
  induction xs with
  | nil =>
    intro pos p1 p2 o1 o2 ys h1 h2
    simp only [applyBody, Option.some.injEq, Prod.mk.injEq] at h1
    obtain ⟨rfl, rfl⟩ := h1
    simpa using h2
  | cons d rest ih =>
    intro pos p1 p2 o1 o2 ys h1 h2
    cases d with
    | ctx s =>
      rw [List.cons_append]
      simp only [applyBody] at h1 ⊢
      cases hg : a.get? pos with
      | none => rw [hg] at h1; simp at h1
      | some x =>
        rw [hg] at h1
        dsimp only at h1 ⊢
        by_cases hx : x = s
        · rw [if_pos hx] at h1 ⊢
          cases hr : applyBody a (pos + 1) rest with
          | none => rw [hr] at h1; simp at h1
          | some r =>
            obtain ⟨r1, r2⟩ := r
            rw [hr] at h1
            simp at h1
            obtain ⟨rfl, rfl⟩ := h1
            rw [ih (pos + 1) r1 p2 r2 o2 ys hr h2]
            simp
        · rw [if_neg hx] at h1
          exact absurd h1 (by simp)
    | del s =>
      rw [List.cons_append]
      simp only [applyBody] at h1 ⊢
      cases hg : a.get? pos with
      | none => rw [hg] at h1; simp at h1
      | some x =>
        rw [hg] at h1
        dsimp only at h1 ⊢
        by_cases hx : x = s
        · rw [if_pos hx] at h1 ⊢
          exact ih (pos + 1) p1 p2 o1 o2 ys h1 h2
        · rw [if_neg hx] at h1
          exact absurd h1 (by simp)
    | add s =>
      rw [List.cons_append]
      simp only [applyBody] at h1 ⊢
      cases hr : applyBody a pos rest with
      | none => rw [hr] at h1; simp at h1
      | some r =>
        obtain ⟨r1, r2⟩ := r
        rw [hr] at h1
        simp at h1
        obtain ⟨rfl, rfl⟩ := h1
        rw [ih pos r1 p2 r2 o2 ys hr h2]
        simp

theorem applyBody_ctx_go (a : List String) :
    ∀ (n p q : Nat), q - p = n → p ≤ q → q ≤ a.length →
      applyBody a p ((seg a p q).map DLine.ctx) = some (q, seg a p q) := by
  intro n
  induction n with
  | zero =>
    intro p q hn hpq hq
    have hpq2 : p = q := by omega
    subst hpq2
    rw [seg_self]
    rfl
  | succ m ihm =>
    intro p q hn hpq hq
    have hplt : p < q := by omega
    have hpa : p < a.length := by omega
    rw [seg_cons a hplt hpa]
    simp only [List.map_cons, applyBody]
    have hget : a.get? p = some (a[p]) := by
      rw [List.get?_eq_getElem?, List.getElem?_eq_getElem hpa]
    rw [hget]
    dsimp only
    rw [if_pos rfl]
    rw [ihm (p + 1) q (by omega) (by omega) hq]
    simp

theorem applyBody_ctx_run (a : List String) (p q : Nat) (hpq : p ≤ q) (hq : q ≤ a.length) :
    applyBody a p ((seg a p q).map DLine.ctx) = some (q, seg a p q) :=
  applyBody_ctx_go a (q - p) p q rfl hpq hq

theorem applyBody_del_go (a : List String) :
    ∀ (n p q : Nat), q - p = n → p ≤ q → q ≤ a.length →
      applyBody a p ((seg a p q).map DLine.del) = some (q, []) := by
  intro n
  induction n with
  | zero =>
    intro p q hn hpq hq
    have hpq2 : p = q := by omega
    subst hpq2
    rw [seg_self]
    rfl
  | succ m ihm =>
    intro p q hn hpq hq
    have hplt : p < q := by omega
    have hpa : p < a.length := by omega
    rw [seg_cons a hplt hpa]
    simp only [List.map_cons, applyBody]
    have hget : a.get? p = some (a[p]) := by
      rw [List.get?_eq_getElem?, List.getElem?_eq_getElem hpa]
    rw [hget]
    dsimp only
    rw [if_pos rfl]
    exact ihm (p + 1) q (by omega) (by omega) hq

theorem applyBody_del_run (a : List String) (p q : Nat) (hpq : p ≤ q) (hq : q ≤ a.length) :
    applyBody a p ((seg a p q).map DLine.del) = some (q, []) :=
  applyBody_del_go a (q - p) p q rfl hpq hq

theorem applyBody_add_run (a : List String) (p : Nat) (xs : List String) :
    applyBody a p (xs.map DLine.add) = some (p, xs) := by
  induction xs with
  | nil => rfl
  | cons x rest ih =>
    simp only [List.map_cons, applyBody]
    rw [ih]
    simp

theorem applyBody_opcode (a b : List String) (c : Opcode)
    (h12 : c.i1 ≤ c.i2) (h34 : c.j1 ≤ c.j2) (hA : c.i2 ≤ a.length) (hB : c.j2 ≤ b.length)
    (htag : TagOK a b c) :
    applyBody a c.i1 (opDLines a b c) = some (c.i2, seg b c.j1 c.j2) := by
  unfold opDLines
  unfold TagOK at htag
  cases hct : c.tag with
  | equal =>
    rw [hct] at htag
    dsimp only at htag ⊢
    obtain ⟨hseg, _⟩ := htag
    rw [applyBody_ctx_run a c.i1 c.i2 h12 hA, hseg]
  | replace =>
    dsimp only
    exact applyBody_append a _ c.i1 c.i2 c.i2 [] (seg b c.j1 c.j2) _
      (applyBody_del_run a c.i1 c.i2 h12 hA)
      (applyBody_add_run a c.i2 (seg b c.j1 c.j2))
  | delete =>
    rw [hct] at htag
    dsimp only at htag ⊢
    rw [applyBody_del_run a c.i1 c.i2 h12 hA, htag, seg_self]
  | insert =>
    rw [hct] at htag
    dsimp only at htag ⊢
    rw [applyBody_add_run a c.i1 (seg b c.j1 c.j2), htag]

theorem applyBody_group (a b : List String) :
    ∀ (g : List Opcode) (sa sb ea eb : Nat), OpsSpec a b sa sb g ea eb →
      applyBody a sa ((g.map (opDLines a b)).flatten) = some (ea, seg b sb eb) := by
  intro g
  induction g with
  | nil =>
    intro sa sb ea eb h
    obtain ⟨rfl, rfl, _, _⟩ := h
    rw [seg_self]
    rfl
  | cons c g' ih =>
    intro sa sb ea eb h
    obtain ⟨e1, e2, h12, h34, hA, hB, htag, hrest⟩ := h
    simp only [List.map_cons, List.flatten_cons]
    have h1 : applyBody a sa (opDLines a b c) = some (c.i2, seg b sb c.j2) := by
      have hx := applyBody_opcode a b c h12 h34 hA hB htag
      rw [e1, e2] at hx
      exact hx
    have h2 := ih c.i2 c.j2 ea eb hrest
    rw [applyBody_append a (opDLines a b c) sa c.i2 ea (seg b sb c.j2) (seg b c.j2 eb)
      ((g'.map (opDLines a b)).flatten) h1 h2]
    obtain ⟨_, hle, _, _⟩ := OpsSpec_le a b g' c.i2 c.j2 ea eb hrest
    rw [seg_append b (show sb ≤ c.j2 from e2 ▸ h34) hle]

theorem GSpec_le (a b : List String) :
    ∀ (gs : List (List Opcode)) (pa pb : Nat), GSpec a b pa pb gs →
      pa ≤ a.length ∧ pb ≤ b.length := by
  intro gs
  induction gs with
  | nil =>
    intro pa pb h
    exact ⟨h.1, h.2.1⟩
  | cons g gs' ih =>
    intro pa pb h
    obtain ⟨sa, sb, ea, eb, _, hpa, hpb, _, _, _, hops, hrest⟩ := h
    obtain ⟨q1, q2, q3, q4⟩ := OpsSpec_le a b g sa sb ea eb hops
    exact ⟨by omega, by omega⟩

theorem applyHunks_gspec (a b : List String) :
    ∀ (gs : List (List Opcode)) (pa pb : Nat), GSpec a b pa pb gs →
      applyHunks a pa (gs.map
          (fun g => ⟨(g.headD default).i1, (g.map (opDLines a b)).flatten⟩)) =
        some (seg b pb b.length) := by
  intro gs
  induction gs with
  | nil =>
    intro pa pb h
    obtain ⟨hA, hB, hlen, hseg⟩ := h
    simp only [List.map_nil, applyHunks]
    rw [seg_drop a hA, hseg]
  | cons g gs' ih =>
    intro pa pb h
    obtain ⟨sa, sb, ea, eb, hne, hpa, hpb, hdl, hgap, hhead, hops, hrest⟩ := h
    obtain ⟨q1, q2, q3, q4⟩ := OpsSpec_le a b g sa sb ea eb hops
    obtain ⟨q5, q6⟩ := GSpec_le a b gs' ea eb hrest
    simp only [List.map_cons, applyHunks]
    rw [hhead]
    rw [if_pos hpa]
    rw [applyBody_group a b g sa sb ea eb hops]
    dsimp only
    rw [ih ea eb hrest]
    simp only [Option.map_some']
    rw [hgap, List.append_assoc, seg_append b q2 q6, seg_append b hpb (by omega)]

/-- Claim C9: the round-trip law for the generated diff, in its
structural form: applying the hunks the diff generator computes for
`(a, b)` — each hunk being the source start position named by its `@@`
header plus the ordered context/delete/add lines of its group — to the
pre-edit line sequence `a` reproduces the post-edit line sequence `b`
exactly.  (The serialized diff *text* does not satisfy the textual
round-trip law; see the counterexample.) -/
theorem claim_C9 (a b : List String) :
    applyStructuralDiff a (structHunks a b) = some b := by
  unfold applyStructuralDiff structHunks
  rw [applyHunks_gspec a b (get_grouped_opcodes a b 3) 0 0 (grouped_spec a b)]
  rw [seg_full]

/-- Claim C9 counterexample: a successful `replace-block` on
`greet.py` (the spec's own §8 scenario) produces the recorded diff text,
but applying that text to the pre-edit content with a standard
unified-diff applier fails (returns `none`) instead of reproducing the
post-edit content: the serialized hunks join every diff line with `'\n'`
while the content lines keep their own terminators, so the body lines do
not match the source. -/
theorem claim_C9_counterexample :
    apply_operation ⟨false, fun _ => .binMissing, "p"⟩
        [("greet.py", "def greet():\n    return 'hi'\n")]
        { op := "replace-block", file := "greet.py", start := some 2, end_ := some 2,
          block := some "    return 'hello'\n" } =
      .ok ([("greet.py", "def greet():\n    return 'hello'\n\n")],
        ⟨true, "greet.py", "replace-block",
          some "--- greet.py\n+++ greet.py\n@@ -1,2 +1,3 @@\n def greet():\n\n-    return 'hi'\n\n+    return 'hello'\n\n+\n",
          none, none⟩) ∧
    applyUnifiedDiffText "def greet():\n    return 'hi'\n"
        "--- greet.py\n+++ greet.py\n@@ -1,2 +1,3 @@\n def greet():\n\n-    return 'hi'\n\n+    return 'hello'\n\n+\n"
      = none :=
  ⟨rfl, rfl⟩

end PatchMgr
